import Mathlib

/-!
# Wake-word capture pipeline (`main/audio_processing/wake_word_detect.cc`)

A shallow embedding of `WakeWordDetect`: the ingest accumulator (`Feed`), the
detection gate, one cycle of `AudioDetectionTask`, the raw retention queue
(`StoreWakeWordData`), the encode pass (`EncodeWakeWordData`) and the blocking
consumer pull (`GetWakeWordOpus`).

Conventions of the embedding:

* `std::vector` and the two retention queues are Lean lists, front of the queue
  first.
* `size_t` counters (`total_pcm_size_`, `total_opus_size_`) are naturals reduced
  modulo `2 ^ 32` (the target is a 32-bit core).
* The constants `MAX_PCM_BUFFER_SIZE` and `MAX_OPUS_BUFFER_SIZE` are declared in
  `wake_word_detect.h`, which is not part of the sources at hand; they are
  parameters of the functions that read them.
* The AFE library (`esp_afe_sr_v1`) and the Opus encoder are external; their
  observable inputs are recorded (`afe_fed`) and their outputs are parameters.
* The registered callbacks are opaque: an invocation is recorded in `callbacks`
  and has no effect on the object.
* A member function that may wait, or whose C++ behaviour is undefined, returns
  an `Outcome`.
-/

/-- A 16-bit audio sample (`int16_t`); its numeric value is never inspected. -/
abbrev Sample := Int

/-- A byte of a compressed packet (`uint8_t`). -/
abbrev Byte := Nat

/-- The width of `size_t` on the target, as a modulus. -/
def SIZE_T_MOD : Nat := 2 ^ 32

/-- Unsigned `a + b` on `size_t`. -/
def sizeAdd (a b : Nat) : Nat := (a + b) % SIZE_T_MOD

/-- Unsigned `a - b` on `size_t` (wraps around below zero). -/
def sizeSub (a b : Nat) : Nat := (a + SIZE_T_MOD - b % SIZE_T_MOD) % SIZE_T_MOD

/-- The value of `ESP_FAIL`. -/
def ESP_FAIL : Int := -1

/-- The values of `res->vad_state` the task distinguishes: `AFE_VAD_SILENCE`,
`AFE_VAD_SPEECH`, and any other value. -/
inductive VadState where
  | AFE_VAD_SILENCE
  | AFE_VAD_SPEECH
  | other
  deriving DecidableEq, Repr

/-- The values of `res->wakeup_state`; the task only tests for `WAKENET_DETECTED`. -/
inductive WakenetState where
  | WAKENET_NO_DETECT
  | WAKENET_CHANNEL_VERIFIED
  | WAKENET_DETECTED
  deriving DecidableEq, Repr

/-- The fields of `afe_fetch_result_t` the task reads. `data` is the memory behind
the `data` pointer, `data_size` its size in bytes. -/
structure AfeFetchResult where
  data : List Sample
  data_size : Nat
  vad_state : VadState
  wakeup_state : WakenetState
  wake_word_index : Int
  ret_value : Int
  deriving DecidableEq, Repr

/-- A recorded callback invocation. -/
inductive Callback where
  | vad_state_change (speaking : Bool)
  | wake_word_detected (wake_word : String)
  deriving DecidableEq, Repr

/-- What a call does in the sequential model: it returns, it waits (its wake-up
condition does not hold), or its behaviour is undefined in C++. -/
inductive Outcome (α : Type) where
  | ok (a : α)
  | blocked
  | undefined
  deriving DecidableEq, Repr

/-- The members of `WakeWordDetect` the modelled functions touch. The bit
`DETECTION_RUNNING_EVENT` of `event_group_` is `detection_running_event`; a
callback member is `true` when a callable is registered. `afe_fed` lists the
chunks handed to `esp_afe_sr_v1.feed`, `callbacks` the invocations made, both
oldest first. -/
structure WakeWordDetect where
  channels_ : Nat
  wake_words_ : List String
  vad_state_change_callback_ : Bool
  wake_word_detected_callback_ : Bool
  detection_running_event : Bool
  input_buffer_ : List Sample
  is_speaking_ : Bool
  last_detected_wake_word_ : String
  wake_word_pcm_ : List (List Sample)
  wake_word_opus_ : List (List Byte)
  total_pcm_size_ : Nat
  total_opus_size_ : Nat
  afe_fed : List (List Sample)
  callbacks : List Callback
  deriving DecidableEq, Repr

namespace WakeWordDetect

/-- Member `StartDetection`: set the gate bit. -/
def StartDetection (s : WakeWordDetect) : WakeWordDetect :=
  { s with detection_running_event := true }

/-- Member `StopDetection`: clear the gate bit. -/
def StopDetection (s : WakeWordDetect) : WakeWordDetect :=
  { s with detection_running_event := false }

/-- Member `OnWakeWordDetected`: register the wake-word callback. -/
def OnWakeWordDetected (s : WakeWordDetect) : WakeWordDetect :=
  { s with wake_word_detected_callback_ := true }

/-- Member `OnVadStateChange`: register the voice-activity callback. -/
def OnVadStateChange (s : WakeWordDetect) : WakeWordDetect :=
  { s with vad_state_change_callback_ := true }

/-- Member `IsDetectionRunning`: read the gate bit. -/
def IsDetectionRunning (s : WakeWordDetect) : Bool :=
  s.detection_running_event

/-- The `while` loop of `Feed`, with `fuel` bounding the number of times the loop
condition is evaluated: while the buffer holds at least `feed_size` samples, hand
the front of the buffer to the AFE (which reads `feed_size` samples from it) and
erase those samples. `none` means the fuel ran out before the loop exited. -/
def feedLoop : Nat → Nat → List Sample → List (List Sample) →
    Option (List Sample × List (List Sample))
  | 0, _, _, _ => none
  | fuel + 1, feed_size, buf, fed =>
    if buf.length ≥ feed_size then
      feedLoop fuel feed_size (buf.drop feed_size) (fed ++ [buf.take feed_size])
    else
      some (buf, fed)

/-- Member `Feed` with an explicit bound on loop-condition evaluations. `chunksize` is
the value of `get_feed_chunksize`. -/
def FeedFuel (fuel chunksize : Nat) (s : WakeWordDetect) (data : List Sample) :
    Option WakeWordDetect :=
  let input_buffer := s.input_buffer_ ++ data
  let feed_size := chunksize * s.channels_
  match feedLoop fuel feed_size input_buffer s.afe_fed with
  | none => none
  | some (buf, fed) => some { s with input_buffer_ := buf, afe_fed := fed }

/-- Member `Feed`: the loop is given one evaluation of its condition per buffered sample
plus one, which is enough whenever `feed_size` is positive (`feedLoop_enough`). -/
def Feed (chunksize : Nat) (s : WakeWordDetect) (data : List Sample) :
    Option WakeWordDetect :=
  FeedFuel ((s.input_buffer_ ++ data).length + 1) chunksize s data

/-- Member `StoreWakeWordData(data, size)`: when the queue holds at least
`MAX_PCM_BUFFER_SIZE` frames and is not empty, drop the front frame; then append
the `size` samples read from `data`. -/
def StoreWakeWordData (MAX_PCM_BUFFER_SIZE : Nat) (s : WakeWordDetect)
    (data : List Sample) (size : Nat) : WakeWordDetect :=
  let s1 :=
    if s.wake_word_pcm_.length ≥ MAX_PCM_BUFFER_SIZE then
      match s.wake_word_pcm_ with
      | [] => s
      | front :: rest =>
        { s with
          total_pcm_size_ := sizeSub s.total_pcm_size_ (front.length * 2)
          wake_word_pcm_ := rest }
    else s
  let pcm_data := data.take size
  { s1 with
    total_pcm_size_ := sizeAdd s1.total_pcm_size_ (pcm_data.length * 2)
    wake_word_pcm_ := s1.wake_word_pcm_ ++ [pcm_data] }

/-- The VAD block of the detection task (the `if (vad_state_change_callback_)`
statement). -/
def vadStateChange (s : WakeWordDetect) (vad_state : VadState) : WakeWordDetect :=
  if s.vad_state_change_callback_ then
    if vad_state = VadState.AFE_VAD_SPEECH ∧ s.is_speaking_ = false then
      { s with is_speaking_ := true
               callbacks := s.callbacks ++ [Callback.vad_state_change true] }
    else if vad_state = VadState.AFE_VAD_SILENCE ∧ s.is_speaking_ = true then
      { s with is_speaking_ := false
               callbacks := s.callbacks ++ [Callback.vad_state_change false] }
    else s
  else s

/-- The element `wake_words_[wake_word_index - 1]`; `none` when the index is
outside the vector (undefined behaviour in C++). -/
def wakeWordAt (wake_words : List String) (wake_word_index : Int) : Option String :=
  if wake_word_index < 1 then none else wake_words[(wake_word_index - 1).toNat]?

/-- The wake block of the detection task (the `if (res->wakeup_state ==
WAKENET_DETECTED)` statement). -/
def wakeupStateCheck (s : WakeWordDetect) (res : AfeFetchResult) :
    Outcome WakeWordDetect :=
  if res.wakeup_state = WakenetState.WAKENET_DETECTED then
    let s1 := StopDetection s
    match wakeWordAt s1.wake_words_ res.wake_word_index with
    | none => Outcome.undefined
    | some w =>
      let s2 := { s1 with last_detected_wake_word_ := w }
      if s2.wake_word_detected_callback_ then
        Outcome.ok { s2 with
          callbacks := s2.callbacks ++
            [Callback.wake_word_detected s2.last_detected_wake_word_] }
      else Outcome.ok s2
  else Outcome.ok s

/-- One iteration of the `while (true)` loop of `AudioDetectionTask`; `res` is
what `esp_afe_sr_v1.fetch` returns in that iteration (`none` for `nullptr`). The
iteration is `blocked` while the gate bit is clear. -/
def AudioDetectionTaskCycle (MAX_PCM_BUFFER_SIZE : Nat) (s : WakeWordDetect)
    (res : Option AfeFetchResult) : Outcome WakeWordDetect :=
  if s.detection_running_event = false then Outcome.blocked
  else
    match res with
    | none => Outcome.ok s
    | some r =>
      if r.ret_value = ESP_FAIL then Outcome.ok s
      else
        let s1 := StoreWakeWordData MAX_PCM_BUFFER_SIZE s r.data (r.data_size / 2)
        let s2 := vadStateChange s1 r.vad_state
        wakeupStateCheck s2 r

/-- The callback the encode task passes to `Encode`: append one packet. -/
def emplaceOpus (s : WakeWordDetect) (opus : List Byte) : WakeWordDetect :=
  { s with wake_word_opus_ := s.wake_word_opus_ ++ [opus] }

/-- Member `EncodeWakeWordData` together with the task it starts, run to completion with
no other task interleaved. `encode` gives the packets the encoder emits for a
frame. -/
def EncodeWakeWordData (encode : List Sample → List (List Byte))
    (s : WakeWordDetect) : WakeWordDetect :=
  let s1 := { s with wake_word_opus_ := [] }
  let s2 := s1.wake_word_pcm_.foldl
    (fun st pcm => (encode pcm).foldl emplaceOpus st) s1
  let s3 := { s2 with wake_word_pcm_ := [] }
  { s3 with wake_word_opus_ := s3.wake_word_opus_ ++ [[]] }

/-- The over-limit block of `GetWakeWordOpus`: when the queue holds more than
`MAX_OPUS_BUFFER_SIZE` packets and is not empty, drop the front packet. -/
def evictOverLimit (MAX_OPUS_BUFFER_SIZE : Nat) (s : WakeWordDetect) : WakeWordDetect :=
  if s.wake_word_opus_.length > MAX_OPUS_BUFFER_SIZE then
    match s.wake_word_opus_ with
    | [] => s
    | front :: rest =>
      { s with
        total_opus_size_ := sizeSub s.total_opus_size_ front.length
        wake_word_opus_ := rest }
  else s

/-- Member `GetWakeWordOpus(opus)`: the returned triple is the `bool` result, the
content of `opus` after the call, and the object after the call. The call is
`blocked` on an empty queue and `undefined` when `front()` is applied to an
empty queue. -/
def GetWakeWordOpus (MAX_OPUS_BUFFER_SIZE : Nat) (s : WakeWordDetect) :
    Outcome (Bool × List Byte × WakeWordDetect) :=
  if s.wake_word_opus_.isEmpty then Outcome.blocked
  else
    let s1 := evictOverLimit MAX_OPUS_BUFFER_SIZE s
    match s1.wake_word_opus_ with
    | [] => Outcome.undefined
    | opus :: rest =>
      let s2 := { s1 with wake_word_opus_ := rest }
      let s3 :=
        if !opus.isEmpty then
          { s2 with total_opus_size_ := sizeSub s2.total_opus_size_ opus.length }
        else s2
      Outcome.ok (!opus.isEmpty, opus, s3)

/-- A list of `Feed` calls, one per element of `ds`, in order. -/
def feedAll (chunksize : Nat) : WakeWordDetect → List (List Sample) → Option WakeWordDetect
  | s, [] => some s
  | s, d :: ds => (Feed chunksize s d).bind (fun s' => feedAll chunksize s' ds)

/-- The consecutive length-`C` blocks of `xs`: block `i` is made of the samples
at positions `i * C, ..., i * C + C - 1`, for every `i` below `xs.length / C`. -/
def consecutiveBlocks (C : Nat) (xs : List Sample) : List (List Sample) :=
  (List.range (xs.length / C)).map (fun i => (xs.drop (i * C)).take C)

/-- The samples of `xs` after its last full length-`C` block. -/
def leftover (C : Nat) (xs : List Sample) : List Sample :=
  xs.drop (xs.length / C * C)

/-- Modelled from the spec: the member initialisers of `wake_word_detect.h`, which
is not among the sources. The object after construction and
`Initialize(channels, _)` with the given wake-word catalog and no callback
registered: accumulator and both queues empty, gate clear, speaking state `false`,
running totals zero. -/
def initial (channels : Nat) (wake_words : List String) : WakeWordDetect :=
  { channels_ := channels
    wake_words_ := wake_words
    vad_state_change_callback_ := false
    wake_word_detected_callback_ := false
    detection_running_event := false
    input_buffer_ := []
    is_speaking_ := false
    last_detected_wake_word_ := ""
    wake_word_pcm_ := []
    wake_word_opus_ := []
    total_pcm_size_ := 0
    total_opus_size_ := 0
    afe_fed := []
    callbacks := [] }

/-- A list of `StoreWakeWordData` calls, one per frame, each storing the whole
frame. -/
def storeAll (MAX_PCM_BUFFER_SIZE : Nat) (s : WakeWordDetect)
    (frames : List (List Sample)) : WakeWordDetect :=
  frames.foldl (fun st f => StoreWakeWordData MAX_PCM_BUFFER_SIZE st f f.length) s

/-- The byte size of the frames held by the raw queue: two bytes per sample. -/
def pcmBytes (q : List (List Sample)) : Nat :=
  (q.map (fun f => f.length * 2)).sum

/-- The eviction invariant in the words of the specification: the bytes held are
at most the ceiling, or the queue holds exactly one frame and that frame is
larger than the ceiling. -/
def EvictionInvariant (ceiling : Nat) (q : List (List Sample)) : Prop :=
  pcmBytes q ≤ ceiling ∨ (q.length = 1 ∧ ceiling < pcmBytes q)

instance (ceiling : Nat) (q : List (List Sample)) : Decidable (EvictionInvariant ceiling q) :=
  inferInstanceAs (Decidable (_ ∨ _))

/-- The append rule in the words of the specification, on a queue and its
running byte total: evict the oldest frame when the total plus the size of the
new frame would exceed the ceiling and the queue is not empty, then append. -/
def specAppend (ceiling : Nat) (q : List (List Sample)) (frame : List Sample) :
    List (List Sample) :=
  if ceiling < pcmBytes q + frame.length * 2 ∧ q ≠ [] then q.tail ++ [frame]
  else q ++ [frame]

/-- Frame number `i` of the retention scenarios: `samples` samples of value `i`. -/
def testFrame (samples : Nat) (i : Nat) : List Sample :=
  List.replicate samples (i : Int)

/-- An encoder for the scenarios: one packet per frame, byte `k` of the packet
being the magnitude of sample `k`. -/
def testEncode (pcm : List Sample) : List (List Byte) :=
  [pcm.map Int.natAbs]

/-- What a run of the consumer loop yields once a call returns `false`: the
packets delivered by the calls that returned `true`, the number of calls made,
the content of `p` after the last call, and the object. -/
structure ConsumerRun where
  sent : List (List Byte)
  calls : Nat
  last : List Byte
  final : WakeWordDetect
  deriving DecidableEq, Repr

/-- Modelled from the spec: the consumer loop
`while (GetCompressedPacket(p)) { send(p); }` of §4.6 (the caller of
`GetWakeWordOpus` is not part of the sources at hand). `fuel` bounds the number of
calls; `none` means the fuel ran out before a call returned `false`. A call that
waits or is undefined ends the run with that outcome. -/
def consumerLoop (MAX_OPUS_BUFFER_SIZE : Nat) :
    Nat → WakeWordDetect → List (List Byte) → Nat → Option (Outcome ConsumerRun)
  | 0, _, _, _ => none
  | fuel + 1, s, sent, calls =>
    match GetWakeWordOpus MAX_OPUS_BUFFER_SIZE s with
    | Outcome.blocked => some Outcome.blocked
    | Outcome.undefined => some Outcome.undefined
    | Outcome.ok (b, p, s') =>
      if b then consumerLoop MAX_OPUS_BUFFER_SIZE fuel s' (sent ++ [p]) (calls + 1)
      else some (Outcome.ok { sent := sent, calls := calls + 1, last := p, final := s' })

/-- The booleans passed to the voice-activity callback, oldest first. -/
def vadCalls (cs : List Callback) : List Bool :=
  cs.filterMap (fun c => match c with
    | Callback.vad_state_change b => some b
    | Callback.wake_word_detected _ => none)

/-- The phrases passed to the wake-word callback, oldest first. -/
def wakeCalls (cs : List Callback) : List String :=
  cs.filterMap (fun c => match c with
    | Callback.vad_state_change _ => none
    | Callback.wake_word_detected w => some w)

/-- What the object does not own: the chunk size reported by the AFE, the two
limits declared in the header, and the encoder. -/
structure Env where
  feed_chunksize : Nat
  MAX_PCM_BUFFER_SIZE : Nat
  MAX_OPUS_BUFFER_SIZE : Nat
  encode : List Sample → List (List Byte)

/-- The operations that can take place while `StartDetection` is not called: the
caller-facing `Feed`, `StopDetection`, `EncodeWakeWordData`, `GetWakeWordOpus`,
and an iteration of the detection task with the given fetch result. -/
inductive Op where
  | Feed (data : List Sample)
  | StopDetection
  | EncodeWakeWordData
  | GetWakeWordOpus
  | AudioDetectionTaskCycle (res : Option AfeFetchResult)
  deriving DecidableEq, Repr

/-- One operation on the object. A `Feed` whose loop does not end is reported as
`undefined` here (the call has no final state). -/
def applyOp (env : Env) (s : WakeWordDetect) : Op → Outcome WakeWordDetect
  | Op.Feed data =>
    match Feed env.feed_chunksize s data with
    | some s' => Outcome.ok s'
    | none => Outcome.undefined
  | Op.StopDetection => Outcome.ok (StopDetection s)
  | Op.EncodeWakeWordData => Outcome.ok (EncodeWakeWordData env.encode s)
  | Op.GetWakeWordOpus =>
    match GetWakeWordOpus env.MAX_OPUS_BUFFER_SIZE s with
    | Outcome.ok (_, _, s') => Outcome.ok s'
    | Outcome.blocked => Outcome.blocked
    | Outcome.undefined => Outcome.undefined
  | Op.AudioDetectionTaskCycle res =>
    AudioDetectionTaskCycle env.MAX_PCM_BUFFER_SIZE s res

/-- A sequence of operations. A blocked operation leaves the object as it is (its
task waits) and the sequence goes on; an operation without a final state ends the
run with `none`. -/
def runOps (env : Env) : WakeWordDetect → List Op → Option WakeWordDetect
  | s, [] => some s
  | s, op :: ops =>
    match applyOp env s op with
    | Outcome.ok s' => runOps env s' ops
    | Outcome.blocked => runOps env s ops
    | Outcome.undefined => none

/-- An environment for the scenarios. -/
def testEnv : Env :=
  { feed_chunksize := 2
    MAX_PCM_BUFFER_SIZE := 4
    MAX_OPUS_BUFFER_SIZE := 4
    encode := testEncode }

/-- The object of the wake-word scenario: mono input, the catalog
`["hey device", "ok device"]`, both callbacks registered, detection started. -/
def armed : WakeWordDetect :=
  StartDetection (OnVadStateChange (OnWakeWordDetected (initial 1 ["hey device", "ok device"])))

/-- A fetch result of four samples carrying speech and a wake event with index 2. -/
def wakeResult : AfeFetchResult :=
  { data := [1, 2, 3, 4]
    data_size := 8
    vad_state := VadState.AFE_VAD_SPEECH
    wakeup_state := WakenetState.WAKENET_DETECTED
    wake_word_index := 2
    ret_value := 0 }

/-- The object after the detection cycle on `armed` and `wakeResult`. -/
def afterWake : WakeWordDetect :=
  { armed with
    detection_running_event := false
    is_speaking_ := true
    last_detected_wake_word_ := "ok device"
    wake_word_pcm_ := [[1, 2, 3, 4]]
    total_pcm_size_ := 8
    callbacks := [Callback.vad_state_change true, Callback.wake_word_detected "ok device"] }

/-- The byte size of the packets held by the compressed queue. -/
def opusBytes (q : List (List Byte)) : Nat :=
  (q.map List.length).sum

/-- The eviction invariant in the words of the specification, for the compressed
queue: the bytes held are at most the ceiling, or the queue holds exactly one
packet and that packet is larger than the ceiling. -/
def OpusEvictionInvariant (ceiling : Nat) (q : List (List Byte)) : Prop :=
  opusBytes q ≤ ceiling ∨ (q.length = 1 ∧ ceiling < opusBytes q)

instance (ceiling : Nat) (q : List (List Byte)) :
    Decidable (OpusEvictionInvariant ceiling q) :=
  inferInstanceAs (Decidable (_ ∨ _))

/-- The characters `std::getline(ss, word, delim)` puts in `word` and the
characters left in the stream, when the stream still holds `ss`: characters are
taken up to the first `delim`, which is removed from the stream and not stored,
or up to the end of the stream. -/
def getlineChars (delim : Char) : List Char → List Char × List Char
  | [] => ([], [])
  | c :: cs =>
    if c = delim then ([], cs)
    else ((c :: (getlineChars delim cs).1), (getlineChars delim cs).2)

/-- The call `std::getline(ss, word, delim)` as a loop condition: on a stream
with nothing left no character is extracted and the stream fails (`none`);
otherwise the call succeeds with the word read and the rest of the stream. -/
def getline (delim : Char) (ss : List Char) : Option (List Char × List Char) :=
  match ss with
  | [] => none
  | _ :: _ => some (getlineChars delim ss)

/-- The loop `while (std::getline(ss, word, ';')) wake_words_.push_back(word)` of
`Initialize`, with `fuel` bounding the number of `getline` calls; `none` means
the fuel ran out before a call failed. -/
def getlineLoop : Nat → List Char → List String → Option (List String)
  | 0, _, _ => none
  | fuel + 1, ss, wake_words =>
    match getline ';' ss with
    | none => some wake_words
    | some (word, rest) => getlineLoop fuel rest (wake_words ++ [String.mk word])

/-- The part of `Initialize` that fills the catalog from the wake-word string of
one model: the loop is given one `getline` call per character plus one, which is
always enough (`getlineLoop_enough`). -/
def splitWakeWords (words : String) (s : WakeWordDetect) : Option WakeWordDetect :=
  match getlineLoop (words.data.length + 1) words.data s.wake_words_ with
  | none => none
  | some ws => some { s with wake_words_ := ws }

/-- The `K` most recent elements of a sequence given oldest first, in the same
order. -/
def mostRecent {α : Type} (K : Nat) (l : List α) : List α :=
  l.drop (l.length - K)

/-- A caller-facing call or task step: `StartDetection`, or one of the
operations of `Op`. -/
inductive Call where
  | StartDetection
  | op (o : Op)
  deriving DecidableEq, Repr

/-- One call on the object. -/
def applyCall (env : Env) (s : WakeWordDetect) : Call → Outcome WakeWordDetect
  | Call.StartDetection => Outcome.ok (StartDetection s)
  | Call.op o => applyOp env s o

/-- A sequence of calls; blocked and unfinished calls are treated as in `runOps`. -/
def runCalls (env : Env) : WakeWordDetect → List Call → Option WakeWordDetect
  | s, [] => some s
  | s, c :: cs =>
    match applyCall env s c with
    | Outcome.ok s' => runCalls env s' cs
    | Outcome.blocked => runCalls env s cs
    | Outcome.undefined => none

/-- A fetch result of two samples with the given VAD state and no wake event. -/
def vadResult (v : VadState) : AfeFetchResult :=
  { data := [7, 8]
    data_size := 4
    vad_state := v
    wakeup_state := WakenetState.WAKENET_NO_DETECT
    wake_word_index := 0
    ret_value := 0 }

/-- The calls of the voice-activity scenario: detection is started, then four
cycles fetch speech, speech again, silence, and a result with another VAD value. -/
def vadRun : List Call :=
  [Call.StartDetection,
   Call.op (Op.AudioDetectionTaskCycle (some (vadResult VadState.AFE_VAD_SPEECH))),
   Call.op (Op.AudioDetectionTaskCycle (some (vadResult VadState.AFE_VAD_SPEECH))),
   Call.op (Op.AudioDetectionTaskCycle (some (vadResult VadState.AFE_VAD_SILENCE))),
   Call.op (Op.AudioDetectionTaskCycle (some (vadResult VadState.other)))]

/-- The object after `vadRun` on a fresh object with a voice-activity callback. -/
def afterVadRun : WakeWordDetect :=
  { OnVadStateChange (initial 1 ["hey device"]) with
    detection_running_event := true
    wake_word_pcm_ := [[7, 8], [7, 8], [7, 8], [7, 8]]
    total_pcm_size_ := 16
    callbacks := [Callback.vad_state_change true, Callback.vad_state_change false] }

/-! ## The ingest accumulator -/

theorem consecutiveBlocks_of_lt {C : Nat} {xs : List Sample} (h : xs.length < C) :
    consecutiveBlocks C xs = [] := by
  simp [consecutiveBlocks, Nat.div_eq_of_lt h]

theorem leftover_of_lt {C : Nat} {xs : List Sample} (h : xs.length < C) :
    leftover C xs = xs := by
  simp [leftover, Nat.div_eq_of_lt h]

theorem div_of_le {C n : Nat} (hC : 0 < C) (h : C ≤ n) : n / C = (n - C) / C + 1 := by
  conv_lhs => rw [← Nat.sub_add_cancel h]
  exact Nat.add_div_right _ hC

theorem consecutiveBlocks_of_le {C : Nat} {xs : List Sample} (hC : 0 < C)
    (h : C ≤ xs.length) :
    consecutiveBlocks C xs = xs.take C :: consecutiveBlocks C (xs.drop C) := by
  unfold consecutiveBlocks
  rw [div_of_le hC h, List.range_succ_eq_map]
  simp only [List.map_cons, List.map_map, List.length_drop, Nat.zero_mul, List.drop_zero]
  congr 1
  apply List.map_congr_left
  intro i _
  simp only [Function.comp, List.drop_drop]
  congr 2
  rw [Nat.succ_mul]
  omega

theorem leftover_of_le {C : Nat} {xs : List Sample} (hC : 0 < C) (h : C ≤ xs.length) :
    leftover C xs = leftover C (xs.drop C) := by
  unfold leftover
  rw [div_of_le hC h, List.length_drop, List.drop_drop]
  congr 1
  rw [Nat.succ_mul]
  omega

theorem feedLoop_enough {C : Nat} (hC : 0 < C) :
    ∀ (fuel : Nat) (buf : List Sample) (fed : List (List Sample)),
      buf.length < fuel →
      feedLoop fuel C buf fed = some (leftover C buf, fed ++ consecutiveBlocks C buf) := by
  intro fuel
  induction fuel with
  | zero => intro buf fed h; omega
  | succ n ih =>
    intro buf fed h
    unfold feedLoop
    by_cases hge : buf.length ≥ C
    · rw [if_pos hge, ih _ _ (by rw [List.length_drop]; omega),
        leftover_of_le hC hge, consecutiveBlocks_of_le hC hge]
      simp
    · rw [if_neg hge, leftover_of_lt (by omega), consecutiveBlocks_of_lt (by omega)]
      simp

theorem consecutiveBlocks_flatten_leftover {C : Nat} (hC : 0 < C) :
    ∀ (n : Nat) (xs : List Sample), xs.length < n →
      (consecutiveBlocks C xs).flatten ++ leftover C xs = xs := by
  intro n
  induction n with
  | zero => intro xs h; omega
  | succ n ih =>
    intro xs h
    by_cases hge : C ≤ xs.length
    · rw [consecutiveBlocks_of_le hC hge, leftover_of_le hC hge, List.flatten_cons,
        List.append_assoc, ih _ (by rw [List.length_drop]; omega), List.take_append_drop]
    · rw [consecutiveBlocks_of_lt (by omega), leftover_of_lt (by omega)]
      simp

theorem consecutiveBlocks_length_eq {C : Nat} (hC : 0 < C) :
    ∀ (n : Nat) (xs : List Sample), xs.length < n →
      ∀ c ∈ consecutiveBlocks C xs, c.length = C := by
  intro n
  induction n with
  | zero => intro xs h; omega
  | succ n ih =>
    intro xs h c hc
    by_cases hge : C ≤ xs.length
    · rw [consecutiveBlocks_of_le hC hge, List.mem_cons] at hc
      rcases hc with rfl | hc
      · rw [List.length_take]; omega
      · exact ih _ (by rw [List.length_drop]; omega) c hc
    · rw [consecutiveBlocks_of_lt (by omega)] at hc
      cases hc

theorem leftover_length {C : Nat} (xs : List Sample) :
    (leftover C xs).length = xs.length % C := by
  unfold leftover
  rw [List.length_drop]
  have h := Nat.div_add_mod xs.length C
  rw [Nat.mul_comm] at h
  omega

theorem consecutiveBlocks_length {C : Nat} (xs : List Sample) :
    (consecutiveBlocks C xs).length = xs.length / C := by
  simp [consecutiveBlocks]

theorem consecutiveBlocks_append {C : Nat} (hC : 0 < C) :
    ∀ (n : Nat) (b e : List Sample), b.length < n →
      consecutiveBlocks C (b ++ e)
          = consecutiveBlocks C b ++ consecutiveBlocks C (leftover C b ++ e)
        ∧ leftover C (b ++ e) = leftover C (leftover C b ++ e) := by
  intro n
  induction n with
  | zero => intro b e h; omega
  | succ n ih =>
    intro b e h
    by_cases hge : C ≤ b.length
    · have hge2 : C ≤ (b ++ e).length := by rw [List.length_append]; omega
      have hd : (b ++ e).drop C = b.drop C ++ e := List.drop_append_of_le_length hge
      have ht : (b ++ e).take C = b.take C := List.take_append_of_le_length hge
      obtain ⟨h1, h2⟩ := ih (b.drop C) e (by rw [List.length_drop]; omega)
      rw [consecutiveBlocks_of_le hC hge2, leftover_of_le hC hge2, hd, ht, h1, h2,
        consecutiveBlocks_of_le hC hge, leftover_of_le hC hge]
      simp
    · rw [consecutiveBlocks_of_lt (show b.length < C by omega),
        leftover_of_lt (show b.length < C by omega)]
      simp

/-- What `Feed` computes when the chunk length is positive. -/
theorem Feed_eq (chunksize : Nat) (s : WakeWordDetect) (data : List Sample)
    (hC : 0 < chunksize * s.channels_) :
    Feed chunksize s data = some { s with
      input_buffer_ := leftover (chunksize * s.channels_) (s.input_buffer_ ++ data)
      afe_fed := s.afe_fed ++
        consecutiveBlocks (chunksize * s.channels_) (s.input_buffer_ ++ data) } := by
  unfold Feed FeedFuel
  simp only []
  rw [feedLoop_enough hC _ _ _ (Nat.lt_succ_self _)]

/-- Two `Feed` calls in a row do what one `Feed` of the two inputs put together does. -/
theorem Feed_Feed (chunksize : Nat) (s : WakeWordDetect) (d e : List Sample)
    (hC : 0 < chunksize * s.channels_) :
    (Feed chunksize s d).bind (fun s' => Feed chunksize s' e) = Feed chunksize s (d ++ e) := by
  rw [Feed_eq chunksize s d hC, Option.some_bind, Feed_eq _ _ e (by simpa using hC),
    Feed_eq chunksize s (d ++ e) hC]
  obtain ⟨h1, h2⟩ := consecutiveBlocks_append hC _ (s.input_buffer_ ++ d) e (Nat.lt_succ_self _)
  simp only [← List.append_assoc, h1, h2]

theorem feedAll_cons (chunksize : Nat) :
    ∀ (ds : List (List Sample)) (d : List Sample) (s : WakeWordDetect),
      0 < chunksize * s.channels_ →
      feedAll chunksize s (d :: ds) = Feed chunksize s (d :: ds).flatten := by
  intro ds
  induction ds with
  | nil =>
    intro d s _
    simp only [feedAll, List.flatten_cons, List.flatten_nil, List.append_nil]
    cases Feed chunksize s d <;> rfl
  | cons e ds ih =>
    intro d s hC
    rw [feedAll, Feed_eq chunksize s d hC, Option.some_bind, ih e _ (by simpa using hC),
      ← Option.some_bind (f := fun s' => Feed chunksize s' (e :: ds).flatten), ← Feed_eq chunksize s d hC,
      Feed_Feed chunksize s d _ hC]
    rfl

/-- C1 (chunking invariant of `Feed`). With a positive chunk length
`C = chunksize * channels_` and an empty accumulator, any list of `Feed` calls
ends in the same state as one `Feed` of the concatenation of the inputs: the
chunks handed to the detection component are the consecutive length-`C` blocks of
the concatenation, appended in order to those handed over before, and the
accumulator keeps the samples after the last full block, at most `C - 1` of them. -/
theorem Feed_chunking_invariant (chunksize : Nat) (s : WakeWordDetect)
    (ds : List (List Sample)) (hC : 0 < chunksize * s.channels_)
    (hB : s.input_buffer_ = []) :
    ∃ s', feedAll chunksize s ds = some s' ∧
      Feed chunksize s ds.flatten = some s' ∧
      s'.afe_fed = s.afe_fed ++ consecutiveBlocks (chunksize * s.channels_) ds.flatten ∧
      s'.input_buffer_ = leftover (chunksize * s.channels_) ds.flatten ∧
      s'.input_buffer_.length ≤ chunksize * s.channels_ - 1 := by
  have hF := Feed_eq chunksize s ds.flatten hC
  rw [hB, List.nil_append] at hF
  refine ⟨_, ?_, hF, rfl, rfl, ?_⟩
  · cases ds with
    | nil =>
      rw [List.flatten_nil, consecutiveBlocks_of_lt (by simpa using hC),
        leftover_of_lt (by simpa using hC)]
      cases s
      simp only [feedAll, List.append_nil] at hB ⊢
      rw [hB]
    | cons d ds => rw [feedAll_cons chunksize ds d s hC, hF]
  · show (leftover _ _).length ≤ _
    rw [leftover_length]
    have := Nat.mod_lt ds.flatten.length hC
    omega

/-- C1, the scenario of the specification: mono input, `feed_chunk_size() = 1600`,
two calls of 2000 and 1200 samples. Exactly two chunks of 1600 samples reach the
detection component and the accumulator is left empty. -/
theorem Feed_chunking_invariant_witness :
    0 < 1600 * (initial 1 []).channels_ ∧ (initial 1 []).input_buffer_ = [] ∧
    ∃ s', feedAll 1600 (initial 1 []) [List.replicate 2000 0, List.replicate 1200 0] = some s' ∧
      s'.afe_fed.length = 2 ∧ (∀ c ∈ s'.afe_fed, c.length = 1600) ∧
      s'.input_buffer_ = [] := by
  refine ⟨by decide, rfl, ?_⟩
  obtain ⟨s', h1, _, h3, h4, _⟩ :=
    Feed_chunking_invariant 1600 (initial 1 [])
      [List.replicate 2000 0, List.replicate 1200 0] (by decide) rfl
  have hlen : [List.replicate 2000 (0 : Sample), List.replicate 1200 0].flatten.length = 3200 := by
    rw [List.flatten_cons, List.flatten_cons, List.flatten_nil, List.length_append,
      List.length_append, List.length_replicate, List.length_replicate, List.length_nil]
  have hfed : s'.afe_fed = consecutiveBlocks 1600
      [List.replicate 2000 (0 : Sample), List.replicate 1200 0].flatten := by
    rw [h3]; exact List.nil_append _
  refine ⟨s', h1, ?_, ?_, ?_⟩
  · rw [hfed, consecutiveBlocks_length, hlen]
  · intro c hc
    rw [hfed] at hc
    exact consecutiveBlocks_length_eq (by decide) _ _ (Nat.lt_succ_self _) c hc
  · apply List.length_eq_zero.mp
    rw [h4, leftover_length, hlen]
    rfl

/-- C2 (`Feed` neither drops nor duplicates samples). With a positive chunk length
`C = chunksize * channels_`, whatever the accumulator holds and whatever the input
(the empty vector included), the chunks handed over during the call followed by the
accumulator after the call are the accumulator before the call followed by the
input, and every chunk handed over has exactly `C` samples. -/
theorem Feed_no_drop_no_duplicate (chunksize : Nat) (s : WakeWordDetect)
    (D : List Sample) (hC : 0 < chunksize * s.channels_) :
    ∃ s' chunks, Feed chunksize s D = some s' ∧
      s'.afe_fed = s.afe_fed ++ chunks ∧
      chunks.flatten ++ s'.input_buffer_ = s.input_buffer_ ++ D ∧
      ∀ c ∈ chunks, c.length = chunksize * s.channels_ :=
  ⟨_, _, Feed_eq chunksize s D hC, rfl,
    consecutiveBlocks_flatten_leftover hC _ _ (Nat.lt_succ_self _),
    consecutiveBlocks_length_eq hC _ _ (Nat.lt_succ_self _)⟩

/-- C2 at a concrete call: two channels, `get_feed_chunksize` 2, three samples
already buffered, six more fed. -/
theorem Feed_no_drop_no_duplicate_witness :
    0 < 2 * ({ initial 2 [] with input_buffer_ := [1, 2, 3] }).channels_ ∧
    ∃ s' chunks,
      Feed 2 { initial 2 [] with input_buffer_ := [1, 2, 3] } [4, 5, 6, 7, 8, 9] = some s' ∧
      s'.afe_fed = ({ initial 2 [] with input_buffer_ := [1, 2, 3] }).afe_fed ++ chunks ∧
      chunks.flatten ++ s'.input_buffer_
        = ({ initial 2 [] with input_buffer_ := [1, 2, 3] }).input_buffer_
          ++ [4, 5, 6, 7, 8, 9] ∧
      ∀ c ∈ chunks,
        c.length = 2 * ({ initial 2 [] with input_buffer_ := [1, 2, 3] }).channels_ :=
  ⟨by decide,
    Feed_no_drop_no_duplicate 2 { initial 2 [] with input_buffer_ := [1, 2, 3] }
      [4, 5, 6, 7, 8, 9] (by decide)⟩

/-! ## The raw retention queue -/

theorem testFrame_length (samples i : Nat) : (testFrame samples i).length = samples := by
  simp [testFrame]

/-- Below the limit `StoreWakeWordData` only appends. -/
theorem StoreWakeWordData_of_lt (MAX_PCM_BUFFER_SIZE : Nat) (s : WakeWordDetect)
    (data : List Sample) (size : Nat) (h : s.wake_word_pcm_.length < MAX_PCM_BUFFER_SIZE) :
    (StoreWakeWordData MAX_PCM_BUFFER_SIZE s data size).wake_word_pcm_
      = s.wake_word_pcm_ ++ [data.take size] := by
  unfold StoreWakeWordData
  simp only [ge_iff_le]
  rw [if_neg (by omega)]

theorem storeAll_of_le (MAX_PCM_BUFFER_SIZE : Nat) :
    ∀ (frames : List (List Sample)) (s : WakeWordDetect),
      s.wake_word_pcm_.length + frames.length ≤ MAX_PCM_BUFFER_SIZE →
      (storeAll MAX_PCM_BUFFER_SIZE s frames).wake_word_pcm_ = s.wake_word_pcm_ ++ frames := by
  intro frames
  induction frames with
  | nil => intro s _; simp [storeAll]
  | cons f fs ih =>
    intro s h
    rw [List.length_cons] at h
    have h1 := StoreWakeWordData_of_lt MAX_PCM_BUFFER_SIZE s f f.length (by omega)
    rw [List.take_length] at h1
    show (storeAll MAX_PCM_BUFFER_SIZE (StoreWakeWordData MAX_PCM_BUFFER_SIZE s f f.length) fs).wake_word_pcm_ = _
    rw [ih _ (by rw [h1, List.length_append, List.length_singleton]; omega), h1]
    simp

/-- Whatever the limit is, from 2 upwards, two frames of as many samples as
the limit stay in the queue together: four times the limit in bytes. -/
theorem StoreWakeWordData_two_frames_any_limit (M : Nat) (hM : 2 ≤ M) :
    ¬ EvictionInvariant M
      (storeAll M (initial 1 []) [testFrame M 0, testFrame M 1]).wake_word_pcm_ := by
  rw [storeAll_of_le M _ _ (by simpa [initial] using hM)]
  simp only [initial, List.nil_append, EvictionInvariant, pcmBytes, List.map_cons,
    List.map_nil, testFrame_length, List.sum_cons, List.sum_nil, List.length_cons,
    List.length_nil]
  omega

/-- C3 (eviction invariant of the raw queue), evaluated on the code: with
`MAX_PCM_BUFFER_SIZE = 2048`, three calls of `StoreWakeWordData` with frames of
512 samples (1024 bytes each) on the empty queue leave all three frames, 3072
bytes, in the queue; the invariant of the specification does not hold there,
because the guard compares the number of frames, not the bytes, with the limit. -/
theorem StoreWakeWordData_breaks_byte_ceiling :
    (storeAll 2048 (initial 1 []) ((List.range 3).map (testFrame 512))).wake_word_pcm_
        = (List.range 3).map (testFrame 512) ∧
      pcmBytes (storeAll 2048 (initial 1 [])
        ((List.range 3).map (testFrame 512))).wake_word_pcm_ = 3072 ∧
      (storeAll 2048 (initial 1 []) ((List.range 3).map (testFrame 512))).total_pcm_size_
        = 3072 ∧
      ¬ EvictionInvariant 2048
        (storeAll 2048 (initial 1 []) ((List.range 3).map (testFrame 512))).wake_word_pcm_ := by
  refine ⟨?_, ?_⟩
  · rw [storeAll_of_le 2048 _ _ (by decide)]
    exact List.nil_append _
  · set_option maxRecDepth 100000 in decide

/-- C4 (append rule of the raw queue), evaluated on the code at the scenario of
the specification: five frames of 1600 samples (3200 bytes) and a limit of 10000.
After three frames the running total is 9600 and the queue is not empty, so the
fourth frame would exceed the limit; the code evicts nothing, and after the five
calls the queue holds all five frames (16000 bytes), where the rule of the
specification leaves three frames (9600 bytes). -/
theorem StoreWakeWordData_scenario_evicts_nothing :
    (storeAll 10000 (initial 1 []) ((List.range 3).map (testFrame 1600))).total_pcm_size_
        = 9600 ∧
      (storeAll 10000 (initial 1 []) ((List.range 3).map (testFrame 1600))).wake_word_pcm_
        ≠ [] ∧
      (StoreWakeWordData 10000
          (storeAll 10000 (initial 1 []) ((List.range 3).map (testFrame 1600)))
          (testFrame 1600 3) 1600).wake_word_pcm_.length = 4 ∧
      (storeAll 10000 (initial 1 []) ((List.range 5).map (testFrame 1600))).wake_word_pcm_
        = (List.range 5).map (testFrame 1600) ∧
      (storeAll 10000 (initial 1 []) ((List.range 5).map (testFrame 1600))).total_pcm_size_
        = 16000 ∧
      (((List.range 5).map (testFrame 1600)).foldl (specAppend 10000) []).length = 3 ∧
      pcmBytes (((List.range 5).map (testFrame 1600)).foldl (specAppend 10000) []) = 9600 := by
  refine ⟨?_, ?_, ?_, ?_, ?_⟩
  · set_option maxRecDepth 100000 in decide
  · set_option maxRecDepth 100000 in decide
  · set_option maxRecDepth 100000 in decide
  · rw [storeAll_of_le 10000 _ _ (by decide)]
    exact List.nil_append _
  · set_option maxRecDepth 100000 in decide

/-! ## The encode pass and the consumer pull -/

theorem evictOverLimit_of_le (MAX_OPUS_BUFFER_SIZE : Nat) (s : WakeWordDetect)
    (hlim : s.wake_word_opus_.length ≤ MAX_OPUS_BUFFER_SIZE) :
    evictOverLimit MAX_OPUS_BUFFER_SIZE s = s := by
  unfold evictOverLimit
  rw [if_neg (by omega)]

/-- The state `GetWakeWordOpus` returns when the over-limit block is not entered. -/
theorem GetWakeWordOpus_of_le (MAX_OPUS_BUFFER_SIZE : Nat) (s : WakeWordDetect)
    (p : List Byte) (rest : List (List Byte)) (hq : s.wake_word_opus_ = p :: rest)
    (hlim : s.wake_word_opus_.length ≤ MAX_OPUS_BUFFER_SIZE) :
    GetWakeWordOpus MAX_OPUS_BUFFER_SIZE s
      = Outcome.ok (!p.isEmpty, p,
          { s with
            wake_word_opus_ := rest
            total_opus_size_ :=
              if p.isEmpty then s.total_opus_size_
              else sizeSub s.total_opus_size_ p.length }) := by
  unfold GetWakeWordOpus
  rw [evictOverLimit_of_le _ _ hlim]
  simp only [hq, List.isEmpty_cons, Bool.false_eq_true, if_false]
  cases p <;> simp

theorem GetWakeWordOpus_of_le_queue (MAX_OPUS_BUFFER_SIZE : Nat) (s : WakeWordDetect)
    (p : List Byte) (rest : List (List Byte)) (hq : s.wake_word_opus_ = p :: rest)
    (hlim : s.wake_word_opus_.length ≤ MAX_OPUS_BUFFER_SIZE) :
    ∃ s', GetWakeWordOpus MAX_OPUS_BUFFER_SIZE s = Outcome.ok (!p.isEmpty, p, s') ∧
      s'.wake_word_opus_ = rest :=
  ⟨_, GetWakeWordOpus_of_le MAX_OPUS_BUFFER_SIZE s p rest hq hlim, rfl⟩

theorem foldl_emplaceOpus (ps : List (List Byte)) :
    ∀ st : WakeWordDetect,
      ps.foldl emplaceOpus st = { st with wake_word_opus_ := st.wake_word_opus_ ++ ps } := by
  induction ps with
  | nil => intro st; simp
  | cons p ps ih => intro st; simp [List.foldl_cons, ih, emplaceOpus]

theorem foldl_encode (encode : List Sample → List (List Byte)) (frames : List (List Sample)) :
    ∀ st : WakeWordDetect,
      frames.foldl (fun st pcm => (encode pcm).foldl emplaceOpus st) st
        = { st with wake_word_opus_ := st.wake_word_opus_ ++ (frames.map encode).flatten } := by
  induction frames with
  | nil => intro st; simp
  | cons f fs ih =>
    intro st
    rw [List.map_cons, List.flatten_cons, List.foldl_cons, ih, foldl_emplaceOpus]
    simp

/-- What one complete encode pass computes. -/
theorem EncodeWakeWordData_eq (encode : List Sample → List (List Byte)) (s : WakeWordDetect) :
    EncodeWakeWordData encode s = { s with
      wake_word_pcm_ := []
      wake_word_opus_ := (s.wake_word_pcm_.map encode).flatten ++ [[]] } := by
  unfold EncodeWakeWordData
  simp [foldl_encode]

/-- The consumer loop on a queue of non-empty packets closed by the sentinel,
when the queue never exceeds the limit. -/
theorem consumerLoop_drain (MAX_OPUS_BUFFER_SIZE : Nat) :
    ∀ (ps : List (List Byte)) (s : WakeWordDetect) (sent : List (List Byte))
      (calls fuel : Nat),
      s.wake_word_opus_ = ps ++ [[]] → (∀ p ∈ ps, p ≠ []) →
      ps.length + 1 ≤ MAX_OPUS_BUFFER_SIZE → ps.length + 1 ≤ fuel →
      ∃ r, consumerLoop MAX_OPUS_BUFFER_SIZE fuel s sent calls = some (Outcome.ok r) ∧
        r.sent = sent ++ ps ∧ r.calls = calls + ps.length + 1 ∧ r.last = [] ∧
        r.final.wake_word_opus_ = [] := by
  intro ps
  induction ps with
  | nil =>
    intro s sent calls fuel hq _ hlim hfuel
    obtain ⟨fuel, rfl⟩ : ∃ k, fuel = k + 1 := ⟨fuel - 1, by simp at hfuel; omega⟩
    have hq2 : s.wake_word_opus_ = [] :: [] := by simpa using hq
    obtain ⟨s', hG, hs'⟩ := GetWakeWordOpus_of_le_queue MAX_OPUS_BUFFER_SIZE s [] [] hq2
      (by rw [hq2]; simpa using hlim)
    unfold consumerLoop
    rw [hG]
    exact ⟨_, rfl, by simp, by simp, rfl, hs'⟩
  | cons p ps ih =>
    intro s sent calls fuel hq hne hlim hfuel
    obtain ⟨fuel, rfl⟩ : ∃ k, fuel = k + 1 := ⟨fuel - 1, by simp at hfuel; omega⟩
    have hq2 : s.wake_word_opus_ = p :: (ps ++ [[]]) := by simpa using hq
    obtain ⟨s', hG, hs'⟩ := GetWakeWordOpus_of_le_queue MAX_OPUS_BUFFER_SIZE s p (ps ++ [[]]) hq2
      (by rw [hq2]; simpa using hlim)
    have hp : p ≠ [] := hne p (List.mem_cons_self _ _)
    have hpe : p.isEmpty = false := by cases p <;> simp at hp ⊢
    unfold consumerLoop
    rw [hG]
    simp only [hpe, Bool.not_false, if_true]
    obtain ⟨r, h1, h2, h3, h4, h5⟩ := ih s' (sent ++ [p]) (calls + 1) fuel hs'
      (fun q hq => hne q (List.mem_cons_of_mem _ hq))
      (by simp at hlim ⊢; omega) (by simp at hfuel ⊢; omega)
    refine ⟨r, h1, ?_, ?_, h4, h5⟩
    · rw [h2]; simp
    · rw [h3]; simp; omega

/-- C5, the claim as stated fails: with `MAX_OPUS_BUFFER_SIZE = 1` and the queue
`[[1], [2]]` the call first discards the oldest packet `[1]`, then delivers `[2]`
and leaves the queue empty; it does not deliver `[1]` leaving `[[2]]`. -/
theorem GetWakeWordOpus_over_limit_drops_oldest :
    GetWakeWordOpus 1 { initial 1 [] with wake_word_opus_ := [[1], [2]] }
        = Outcome.ok (true, [2],
            { initial 1 [] with wake_word_opus_ := [], total_opus_size_ := 4294967294 }) ∧
      ¬ ∃ b s', GetWakeWordOpus 1 { initial 1 [] with wake_word_opus_ := [[1], [2]] }
          = Outcome.ok (b, [1], s') ∧ s'.wake_word_opus_ = [[2]] := by
  have h : GetWakeWordOpus 1 { initial 1 [] with wake_word_opus_ := [[1], [2]] }
        = Outcome.ok (true, [2],
            { initial 1 [] with wake_word_opus_ := [], total_opus_size_ := 4294967294 }) := by
    decide
  refine ⟨h, ?_⟩
  rintro ⟨b, s', h', _⟩
  rw [h] at h'
  simp at h'

/-- C5 (amended). On a non-empty compressed queue that holds at most
`MAX_OPUS_BUFFER_SIZE` packets (the over-limit block is not entered),
`GetWakeWordOpus` removes exactly the oldest packet, leaves the remaining packets
as they are and in the same order, places the removed packet in `opus`, and
returns `false` if and only if that packet is empty. -/
theorem GetWakeWordOpus_pops_oldest (MAX_OPUS_BUFFER_SIZE : Nat) (s : WakeWordDetect)
    (p : List Byte) (rest : List (List Byte)) (hq : s.wake_word_opus_ = p :: rest)
    (hlim : s.wake_word_opus_.length ≤ MAX_OPUS_BUFFER_SIZE) :
    ∃ b s', GetWakeWordOpus MAX_OPUS_BUFFER_SIZE s = Outcome.ok (b, p, s') ∧
      s'.wake_word_opus_ = rest ∧ (b = false ↔ p = []) ∧ (b = true ↔ p ≠ []) := by
  refine ⟨_, _, GetWakeWordOpus_of_le MAX_OPUS_BUFFER_SIZE s p rest hq hlim, rfl, ?_, ?_⟩
  · cases p <;> simp
  · cases p <;> simp

/-- C5 (amended) at a concrete queue: two packets, limit 2. -/
theorem GetWakeWordOpus_pops_oldest_witness :
    ({ initial 1 [] with wake_word_opus_ := [[1], [2]] } : WakeWordDetect).wake_word_opus_
        = [1] :: [[2]] ∧
      ({ initial 1 [] with wake_word_opus_ := [[1], [2]] } : WakeWordDetect).wake_word_opus_.length
        ≤ 2 ∧
      ∃ b s', GetWakeWordOpus 2 { initial 1 [] with wake_word_opus_ := [[1], [2]] }
          = Outcome.ok (b, [1], s') ∧
        s'.wake_word_opus_ = [[2]] ∧ (b = false ↔ [1] = ([] : List Byte)) ∧
        (b = true ↔ [1] ≠ ([] : List Byte)) :=
  ⟨rfl, by decide,
    GetWakeWordOpus_pops_oldest 2 { initial 1 [] with wake_word_opus_ := [[1], [2]] }
      [1] [[2]] rfl (by decide)⟩

/-- C6, the claim as stated fails: with `MAX_OPUS_BUFFER_SIZE = 2`, two non-empty
raw frames and an encoder emitting one non-empty packet per frame, the encode pass
stages three packets; the first `GetWakeWordOpus` call discards the packet of the
first frame and delivers the second, the second call returns `false`. The loop
makes 2 calls, not 3, and delivers one packet, not two. -/
theorem consumerLoop_over_limit_two_calls :
    (∀ f ∈ ({ initial 1 [] with wake_word_pcm_ := [[10], [20]] } : WakeWordDetect).wake_word_pcm_,
        ∃ p, testEncode f = [p] ∧ p ≠ []) ∧
      consumerLoop 2 3
          (EncodeWakeWordData testEncode { initial 1 [] with wake_word_pcm_ := [[10], [20]] })
          [] 0
        = some (Outcome.ok
            { sent := [[20]], calls := 2, last := [],
              final := { initial 1 [] with total_opus_size_ := 4294967294 } }) ∧
      ¬ ∃ r, consumerLoop 2 3
          (EncodeWakeWordData testEncode { initial 1 [] with wake_word_pcm_ := [[10], [20]] })
          [] 0 = some (Outcome.ok r) ∧ r.calls = 2 + 1 := by
  have h : consumerLoop 2 3
      (EncodeWakeWordData testEncode { initial 1 [] with wake_word_pcm_ := [[10], [20]] })
      [] 0
        = some (Outcome.ok
            { sent := [[20]], calls := 2, last := [],
              final := { initial 1 [] with total_opus_size_ := 4294967294 } }) := by
    decide
  refine ⟨?_, h, ?_⟩
  · intro f hf
    exact ⟨f.map Int.natAbs, rfl, by
      simp only [List.mem_cons, List.mem_singleton, List.not_mem_nil, or_false] at hf
      rcases hf with rfl | rfl <;> decide⟩
  · rintro ⟨r, h', hr⟩
    rw [h] at h'
    simp only [Option.some.injEq, Outcome.ok.injEq] at h'
    rw [← h'] at hr
    simp at hr

/-- C6 (amended). Let the raw queue hold `N` frames, let the encoder emit exactly
one non-empty packet per frame, and let `N + 1` be at most `MAX_OPUS_BUFFER_SIZE`
(so that `GetWakeWordOpus` never enters its over-limit block). After one complete
encode pass the loop `while (GetWakeWordOpus(p))`, allowed at least `N + 1` calls,
makes exactly `N + 1` calls: the first `N` return `true` and deliver the `N`
packets in frame order, the last returns `false` with an empty packet, and the
compressed queue is then empty. -/
theorem consumerLoop_sentinel_termination (MAX_OPUS_BUFFER_SIZE : Nat)
    (encode : List Sample → List (List Byte)) (s : WakeWordDetect) (fuel : Nat)
    (hone : ∀ f ∈ s.wake_word_pcm_, ∃ p, encode f = [p] ∧ p ≠ [])
    (hlim : s.wake_word_pcm_.length + 1 ≤ MAX_OPUS_BUFFER_SIZE)
    (hfuel : s.wake_word_pcm_.length + 1 ≤ fuel) :
    ∃ r, consumerLoop MAX_OPUS_BUFFER_SIZE fuel (EncodeWakeWordData encode s) [] 0
          = some (Outcome.ok r) ∧
      r.sent = (s.wake_word_pcm_.map encode).flatten ∧
      r.sent.length = s.wake_word_pcm_.length ∧
      (∀ p ∈ r.sent, p ≠ []) ∧
      r.calls = s.wake_word_pcm_.length + 1 ∧
      r.last = [] ∧
      r.final.wake_word_opus_ = [] := by
  have hlen : ∀ frames : List (List Sample),
      (∀ f ∈ frames, ∃ p, encode f = [p] ∧ p ≠ []) →
      (frames.map encode).flatten.length = frames.length ∧
        ∀ p ∈ (frames.map encode).flatten, p ≠ [] := by
    intro frames
    induction frames with
    | nil => intro _; simp
    | cons f fs ih =>
      intro h
      obtain ⟨p, hp, hpne⟩ := h f (List.mem_cons_self _ _)
      obtain ⟨ih1, ih2⟩ := ih (fun g hg => h g (List.mem_cons_of_mem _ hg))
      rw [List.map_cons, List.flatten_cons, hp]
      refine ⟨by simp [ih1], ?_⟩
      intro q hq
      rcases List.mem_append.mp hq with hq | hq
      · rw [List.mem_singleton.mp hq]; exact hpne
      · exact ih2 q hq
  obtain ⟨hl, hne⟩ := hlen _ hone
  obtain ⟨r, h1, h2, h3, h4, h5⟩ := consumerLoop_drain MAX_OPUS_BUFFER_SIZE
    (s.wake_word_pcm_.map encode).flatten (EncodeWakeWordData encode s) [] 0 fuel
    (by rw [EncodeWakeWordData_eq]) hne (by omega) (by omega)
  refine ⟨r, h1, by simpa using h2, ?_, ?_, ?_, h4, h5⟩
  · rw [h2]; simpa using hl
  · rw [h2]; simpa using hne
  · rw [h3]; omega

/-- C6 (amended) at a concrete pass: two frames, limit 3, three calls allowed. -/
theorem consumerLoop_sentinel_termination_witness :
    (∀ f ∈ ({ initial 1 [] with wake_word_pcm_ := [[10], [20]] } : WakeWordDetect).wake_word_pcm_,
        ∃ p, testEncode f = [p] ∧ p ≠ []) ∧
      ∃ r, consumerLoop 3 3
            (EncodeWakeWordData testEncode { initial 1 [] with wake_word_pcm_ := [[10], [20]] })
            [] 0 = some (Outcome.ok r) ∧
        r.sent = [[10], [20]] ∧ r.calls = 3 ∧ r.last = [] ∧ r.final.wake_word_opus_ = [] := by
  have hone : ∀ f ∈ ({ initial 1 [] with wake_word_pcm_ := [[10], [20]] } :
      WakeWordDetect).wake_word_pcm_, ∃ p, testEncode f = [p] ∧ p ≠ [] := by
    intro f hf
    exact ⟨f.map Int.natAbs, rfl, by
      simp only [List.mem_cons, List.mem_singleton, List.not_mem_nil, or_false] at hf
      rcases hf with rfl | rfl <;> decide⟩
  obtain ⟨r, h1, h2, _, _, h5, h6, h7⟩ :=
    consumerLoop_sentinel_termination 3 testEncode
      { initial 1 [] with wake_word_pcm_ := [[10], [20]] } 3 hone (by decide) (by decide)
  exact ⟨hone, r, h1, by rw [h2]; decide, by rw [h5]; rfl, h6, h7⟩

/-- C7 (postcondition of one encode pass). Whatever the raw queue `[f1, ..., fN]`,
the previous content of the compressed queue and the encoder, after one complete
pass the compressed queue is the packets of `f1`, then of `f2`, ..., then of `fN`,
followed by one empty sentinel packet, and the raw queue is empty. -/
theorem EncodeWakeWordData_postcondition (encode : List Sample → List (List Byte))
    (s : WakeWordDetect) :
    (EncodeWakeWordData encode s).wake_word_opus_
        = (s.wake_word_pcm_.map encode).flatten ++ [[]] ∧
      (EncodeWakeWordData encode s).wake_word_pcm_ = [] := by
  rw [EncodeWakeWordData_eq]
  exact ⟨rfl, rfl⟩

/-! ## The detection gate and the detection cycle -/

theorem StoreWakeWordData_frame (MAX_PCM_BUFFER_SIZE : Nat) (s : WakeWordDetect)
    (data : List Sample) (size : Nat) :
    (StoreWakeWordData MAX_PCM_BUFFER_SIZE s data size).detection_running_event
        = s.detection_running_event ∧
      (StoreWakeWordData MAX_PCM_BUFFER_SIZE s data size).callbacks = s.callbacks ∧
      (StoreWakeWordData MAX_PCM_BUFFER_SIZE s data size).is_speaking_ = s.is_speaking_ ∧
      (StoreWakeWordData MAX_PCM_BUFFER_SIZE s data size).vad_state_change_callback_
        = s.vad_state_change_callback_ ∧
      (StoreWakeWordData MAX_PCM_BUFFER_SIZE s data size).wake_word_detected_callback_
        = s.wake_word_detected_callback_ ∧
      (StoreWakeWordData MAX_PCM_BUFFER_SIZE s data size).wake_words_ = s.wake_words_ := by
  unfold StoreWakeWordData
  simp only []
  split
  · split <;> exact ⟨rfl, rfl, rfl, rfl, rfl, rfl⟩
  · exact ⟨rfl, rfl, rfl, rfl, rfl, rfl⟩

theorem vadStateChange_frame (s : WakeWordDetect) (v : VadState) :
    (vadStateChange s v).detection_running_event = s.detection_running_event ∧
      wakeCalls (vadStateChange s v).callbacks = wakeCalls s.callbacks ∧
      (vadStateChange s v).wake_word_detected_callback_ = s.wake_word_detected_callback_ ∧
      (vadStateChange s v).wake_words_ = s.wake_words_ := by
  unfold vadStateChange
  split
  · split
    · exact ⟨rfl, by simp [wakeCalls], rfl, rfl⟩
    · split
      · exact ⟨rfl, by simp [wakeCalls], rfl, rfl⟩
      · exact ⟨rfl, rfl, rfl, rfl⟩
  · exact ⟨rfl, rfl, rfl, rfl⟩

/-- The three cases of the VAD block when a voice-activity callback is registered. -/
theorem vadStateChange_cases (s : WakeWordDetect) (v : VadState)
    (hcb : s.vad_state_change_callback_ = true) :
    (v = VadState.AFE_VAD_SPEECH ∧ s.is_speaking_ = false →
        (vadStateChange s v).is_speaking_ = true ∧
          vadCalls (vadStateChange s v).callbacks = vadCalls s.callbacks ++ [true]) ∧
      (v = VadState.AFE_VAD_SILENCE ∧ s.is_speaking_ = true →
        (vadStateChange s v).is_speaking_ = false ∧
          vadCalls (vadStateChange s v).callbacks = vadCalls s.callbacks ++ [false]) ∧
      (¬ (v = VadState.AFE_VAD_SPEECH ∧ s.is_speaking_ = false) ∧
          ¬ (v = VadState.AFE_VAD_SILENCE ∧ s.is_speaking_ = true) →
        (vadStateChange s v).is_speaking_ = s.is_speaking_ ∧
          vadCalls (vadStateChange s v).callbacks = vadCalls s.callbacks) := by
  unfold vadStateChange
  rw [if_pos hcb]
  refine ⟨?_, ?_, ?_⟩
  · intro h
    rw [if_pos h]
    exact ⟨rfl, by simp [vadCalls]⟩
  · intro h
    rw [if_neg (by rintro ⟨h1, h2⟩; rw [h.2] at h2; cases h2), if_pos h]
    exact ⟨rfl, by simp [vadCalls]⟩
  · rintro ⟨h1, h2⟩
    rw [if_neg h1, if_neg h2]
    exact ⟨rfl, rfl⟩

/-- The wake block leaves the speaking state and the voice-activity calls alone. -/
theorem wakeupStateCheck_vad (s s' : WakeWordDetect) (res : AfeFetchResult)
    (h : wakeupStateCheck s res = Outcome.ok s') :
    s'.is_speaking_ = s.is_speaking_ ∧ vadCalls s'.callbacks = vadCalls s.callbacks := by
  unfold wakeupStateCheck at h
  split at h
  · simp only [] at h
    split at h
    · cases h
    · split at h
      · cases h
        exact ⟨rfl, by simp [vadCalls, StopDetection]⟩
      · cases h
        exact ⟨rfl, rfl⟩
  · cases h
    exact ⟨rfl, rfl⟩

/-- The wake block on a wake event whose phrase is in the catalog. -/
theorem wakeupStateCheck_detected (s : WakeWordDetect) (res : AfeFetchResult)
    (phrase : String) (hwake : res.wakeup_state = WakenetState.WAKENET_DETECTED)
    (hw : wakeWordAt s.wake_words_ res.wake_word_index = some phrase) :
    ∃ s', wakeupStateCheck s res = Outcome.ok s' ∧
      s'.detection_running_event = false ∧
      s'.last_detected_wake_word_ = phrase ∧
      wakeCalls s'.callbacks = wakeCalls s.callbacks ++
        (if s.wake_word_detected_callback_ then [phrase] else []) := by
  unfold wakeupStateCheck
  rw [if_pos hwake]
  simp only [StopDetection, hw]
  cases hcb : s.wake_word_detected_callback_
  · exact ⟨_, rfl, rfl, rfl, by simp⟩
  · exact ⟨_, rfl, rfl, rfl, by simp [wakeCalls]⟩

/-- A wake event processed to the end leaves the gate clear. -/
theorem wakeupStateCheck_clears_gate (s s' : WakeWordDetect) (res : AfeFetchResult)
    (hwake : res.wakeup_state = WakenetState.WAKENET_DETECTED)
    (h : wakeupStateCheck s res = Outcome.ok s') :
    s'.detection_running_event = false := by
  unfold wakeupStateCheck at h
  rw [if_pos hwake] at h
  simp only [] at h
  split at h
  · cases h
  · split at h <;> (cases h; rfl)

/-- The detection cycle on a fetched result that is not marked failed, gate set. -/
theorem AudioDetectionTaskCycle_fetched (MAX_PCM_BUFFER_SIZE : Nat) (s : WakeWordDetect)
    (res : AfeFetchResult) (hgate : s.detection_running_event = true)
    (hret : res.ret_value ≠ ESP_FAIL) :
    AudioDetectionTaskCycle MAX_PCM_BUFFER_SIZE s (some res)
      = wakeupStateCheck
          (vadStateChange
            (StoreWakeWordData MAX_PCM_BUFFER_SIZE s res.data (res.data_size / 2))
            res.vad_state) res := by
  unfold AudioDetectionTaskCycle
  rw [if_neg (by rw [hgate]; decide)]
  simp only [if_neg hret]

/-- A cycle that ends is a cycle that found the gate set. -/
theorem AudioDetectionTaskCycle_ok_gate (MAX_PCM_BUFFER_SIZE : Nat) (s s' : WakeWordDetect)
    (res : Option AfeFetchResult)
    (h : AudioDetectionTaskCycle MAX_PCM_BUFFER_SIZE s res = Outcome.ok s') :
    s.detection_running_event = true := by
  unfold AudioDetectionTaskCycle at h
  cases hg : s.detection_running_event
  · rw [if_pos hg] at h; cases h
  · rfl

/-- While the gate is clear the detection cycle waits. -/
theorem AudioDetectionTaskCycle_blocked (MAX_PCM_BUFFER_SIZE : Nat) (s : WakeWordDetect)
    (res : Option AfeFetchResult) (hgate : s.detection_running_event = false) :
    AudioDetectionTaskCycle MAX_PCM_BUFFER_SIZE s res = Outcome.blocked := by
  unfold AudioDetectionTaskCycle
  rw [if_pos hgate]

theorem Feed_frame (chunksize : Nat) (s s' : WakeWordDetect) (data : List Sample)
    (h : Feed chunksize s data = some s') :
    s'.detection_running_event = s.detection_running_event ∧
      s'.callbacks = s.callbacks ∧ s'.wake_word_pcm_ = s.wake_word_pcm_ := by
  unfold Feed FeedFuel at h
  simp only [] at h
  split at h
  · cases h
  · cases h
    exact ⟨rfl, rfl, rfl⟩

theorem evictOverLimit_frame (MAX_OPUS_BUFFER_SIZE : Nat) (s : WakeWordDetect) :
    (evictOverLimit MAX_OPUS_BUFFER_SIZE s).detection_running_event
        = s.detection_running_event ∧
      (evictOverLimit MAX_OPUS_BUFFER_SIZE s).callbacks = s.callbacks ∧
      (evictOverLimit MAX_OPUS_BUFFER_SIZE s).wake_word_pcm_ = s.wake_word_pcm_ := by
  unfold evictOverLimit
  split
  · split <;> exact ⟨rfl, rfl, rfl⟩
  · exact ⟨rfl, rfl, rfl⟩

theorem GetWakeWordOpus_frame (MAX_OPUS_BUFFER_SIZE : Nat) (s s' : WakeWordDetect)
    (b : Bool) (p : List Byte)
    (h : GetWakeWordOpus MAX_OPUS_BUFFER_SIZE s = Outcome.ok (b, p, s')) :
    s'.detection_running_event = s.detection_running_event ∧
      s'.callbacks = s.callbacks ∧ s'.wake_word_pcm_ = s.wake_word_pcm_ := by
  obtain ⟨e1, e2, e3⟩ := evictOverLimit_frame MAX_OPUS_BUFFER_SIZE s
  unfold GetWakeWordOpus at h
  split at h
  · cases h
  · simp only [] at h
    split at h
    · cases h
    · simp only [Outcome.ok.injEq, Prod.mk.injEq] at h
      obtain ⟨_, _, rfl⟩ := h
      split <;> exact ⟨e1, e2, e3⟩

/-- With the gate clear, an operation other than `StartDetection` that ends
leaves the gate clear, makes no callback invocation, and either leaves the raw
queue as it is or empties it. -/
theorem applyOp_gate_clear (env : Env) (s s' : WakeWordDetect) (op : Op)
    (hgate : s.detection_running_event = false) (h : applyOp env s op = Outcome.ok s') :
    s'.detection_running_event = false ∧ s'.callbacks = s.callbacks ∧
      (s'.wake_word_pcm_ = s.wake_word_pcm_ ∨ s'.wake_word_pcm_ = []) := by
  cases op with
  | Feed data =>
    simp only [applyOp] at h
    split at h
    · next s'' hF =>
      cases h
      obtain ⟨f1, f2, f3⟩ := Feed_frame _ _ _ _ hF
      exact ⟨f1.trans hgate, f2, Or.inl f3⟩
    · cases h
  | StopDetection =>
    simp only [applyOp] at h
    cases h
    exact ⟨rfl, rfl, Or.inl rfl⟩
  | EncodeWakeWordData =>
    simp only [applyOp] at h
    cases h
    rw [EncodeWakeWordData_eq]
    exact ⟨hgate, rfl, Or.inr rfl⟩
  | GetWakeWordOpus =>
    simp only [applyOp] at h
    split at h
    · next b p s'' hG =>
      cases h
      obtain ⟨f1, f2, f3⟩ := GetWakeWordOpus_frame _ _ _ _ _ hG
      exact ⟨f1.trans hgate, f2, Or.inl f3⟩
    · cases h
    · cases h
  | AudioDetectionTaskCycle res =>
    simp only [applyOp] at h
    rw [AudioDetectionTaskCycle_blocked _ _ _ hgate] at h
    cases h

theorem runOps_gate_clear (env : Env) :
    ∀ (ops : List Op) (s s' : WakeWordDetect),
      s.detection_running_event = false → runOps env s ops = some s' →
      s'.detection_running_event = false ∧ s'.callbacks = s.callbacks ∧
        (s'.wake_word_pcm_ = s.wake_word_pcm_ ∨ s'.wake_word_pcm_ = []) := by
  intro ops
  induction ops with
  | nil =>
    intro s s' hgate h
    simp only [runOps, Option.some.injEq] at h
    subst h
    exact ⟨hgate, rfl, Or.inl rfl⟩
  | cons op ops ih =>
    intro s s' hgate h
    simp only [runOps] at h
    split at h
    · next s1 h1 =>
      obtain ⟨g1, c1, q1⟩ := applyOp_gate_clear env s s1 op hgate h1
      obtain ⟨g2, c2, q2⟩ := ih s1 s' g1 h
      refine ⟨g2, c2.trans c1, ?_⟩
      rcases q2 with q2 | q2
      · rcases q1 with q1 | q1
        · exact Or.inl (q2.trans q1)
        · exact Or.inr (q2.trans q1)
      · exact Or.inr q2
    · exact ih s s' hgate h
    · cases h

/-- C8 (gate edge-trigger). Once a detection cycle has processed a result with a
wake event, `IsDetectionRunning()` is `false`; and after any sequence of `Feed`,
`StopDetection`, `EncodeWakeWordData`, `GetWakeWordOpus` operations and attempted
detection cycles, it is still `false`, every detection cycle waits (so none of
them retained a frame or made a callback invocation: the callback record is the
one left by the wake cycle, and the raw queue is as the wake cycle left it or was
emptied by an encode pass), until `StartDetection()` is called, after which
`IsDetectionRunning()` is `true`. -/
theorem gate_edge_trigger (env : Env) (s s1 : WakeWordDetect) (res : AfeFetchResult)
    (hret : res.ret_value ≠ ESP_FAIL)
    (hwake : res.wakeup_state = WakenetState.WAKENET_DETECTED)
    (hcycle : AudioDetectionTaskCycle env.MAX_PCM_BUFFER_SIZE s (some res) = Outcome.ok s1) :
    IsDetectionRunning s1 = false ∧
      ∀ (ops : List Op) (s2 : WakeWordDetect), runOps env s1 ops = some s2 →
        IsDetectionRunning s2 = false ∧
        (∀ (m : Nat) (r : Option AfeFetchResult),
          AudioDetectionTaskCycle m s2 r = Outcome.blocked) ∧
        s2.callbacks = s1.callbacks ∧
        (s2.wake_word_pcm_ = s1.wake_word_pcm_ ∨ s2.wake_word_pcm_ = []) ∧
        IsDetectionRunning (StartDetection s2) = true := by
  have hgate := AudioDetectionTaskCycle_ok_gate _ _ _ _ hcycle
  rw [AudioDetectionTaskCycle_fetched _ _ _ hgate hret] at hcycle
  have h1 : s1.detection_running_event = false :=
    wakeupStateCheck_clears_gate _ _ _ hwake hcycle
  refine ⟨h1, ?_⟩
  intro ops s2 hrun
  obtain ⟨g, c, q⟩ := runOps_gate_clear env ops s1 s2 h1 hrun
  exact ⟨g, fun m r => AudioDetectionTaskCycle_blocked m s2 r g, c, q, rfl⟩

/-- C8 at the wake-word scenario: the cycle on `armed` and `wakeResult` ends in
`afterWake`, from which the gate stays clear. -/
theorem gate_edge_trigger_witness :
    wakeResult.ret_value ≠ ESP_FAIL ∧
      wakeResult.wakeup_state = WakenetState.WAKENET_DETECTED ∧
      AudioDetectionTaskCycle testEnv.MAX_PCM_BUFFER_SIZE armed (some wakeResult)
        = Outcome.ok afterWake ∧
      IsDetectionRunning afterWake = false ∧
      ∀ (ops : List Op) (s2 : WakeWordDetect), runOps testEnv afterWake ops = some s2 →
        IsDetectionRunning s2 = false ∧
        (∀ (m : Nat) (r : Option AfeFetchResult),
          AudioDetectionTaskCycle m s2 r = Outcome.blocked) ∧
        s2.callbacks = afterWake.callbacks ∧
        (s2.wake_word_pcm_ = afterWake.wake_word_pcm_ ∨ s2.wake_word_pcm_ = []) ∧
        IsDetectionRunning (StartDetection s2) = true :=
  ⟨by decide, rfl, by decide,
    gate_edge_trigger testEnv armed afterWake wakeResult (by decide) rfl (by decide)⟩

/-- C9 (wake-word resolution). In a detection cycle that processes a wake event
whose 1-based index `i` satisfies `1 ≤ i ≤ length(catalog)`, the gate is cleared,
`catalog[i-1]` is stored as the last detected wake word, and the wake-word
callback, if registered, is invoked exactly once, with `catalog[i-1]`; with no
callback registered it is not invoked, the gate is still cleared and the phrase
still stored. -/
theorem wake_word_resolution (MAX_PCM_BUFFER_SIZE : Nat) (s : WakeWordDetect)
    (res : AfeFetchResult) (i : Nat)
    (hgate : s.detection_running_event = true) (hret : res.ret_value ≠ ESP_FAIL)
    (hwake : res.wakeup_state = WakenetState.WAKENET_DETECTED)
    (hi : res.wake_word_index = (i : Int)) (h1 : 1 ≤ i) (h2 : i ≤ s.wake_words_.length) :
    ∃ s' phrase, s.wake_words_[i - 1]? = some phrase ∧
      AudioDetectionTaskCycle MAX_PCM_BUFFER_SIZE s (some res) = Outcome.ok s' ∧
      IsDetectionRunning s' = false ∧
      s'.last_detected_wake_word_ = phrase ∧
      wakeCalls s'.callbacks = wakeCalls s.callbacks ++
        (if s.wake_word_detected_callback_ then [phrase] else []) := by
  obtain ⟨_, _, _, _, hS5, hS6⟩ :=
    StoreWakeWordData_frame MAX_PCM_BUFFER_SIZE s res.data (res.data_size / 2)
  obtain ⟨_, hV2, hV3, hV4⟩ :=
    vadStateChange_frame
      (StoreWakeWordData MAX_PCM_BUFFER_SIZE s res.data (res.data_size / 2)) res.vad_state
  have hlt : i - 1 < s.wake_words_.length := by omega
  have hphrase : s.wake_words_[i - 1]? = some (s.wake_words_[i - 1]) :=
    List.getElem?_eq_getElem hlt
  have hw : wakeWordAt
      (vadStateChange
        (StoreWakeWordData MAX_PCM_BUFFER_SIZE s res.data (res.data_size / 2))
        res.vad_state).wake_words_ res.wake_word_index = some (s.wake_words_[i - 1]) := by
    unfold wakeWordAt
    rw [hV4, hS6, hi, if_neg (by omega)]
    have : ((i : Int) - 1).toNat = i - 1 := by omega
    rw [this, hphrase]
  obtain ⟨s', hc, hg, hl, hcalls⟩ := wakeupStateCheck_detected _ res _ hwake hw
  refine ⟨s', _, hphrase, ?_, hg, hl, ?_⟩
  · rw [AudioDetectionTaskCycle_fetched _ _ _ hgate hret, hc]
  · rw [hcalls, hV2, hV3, hS5]
    unfold StoreWakeWordData
    simp only []
    split
    · split <;> rfl
    · rfl

/-- C9, the scenario of the specification: index 2 with the catalog
`["hey device", "ok device"]` resolves to `"ok device"`. -/
theorem wake_word_resolution_witness :
    armed.detection_running_event = true ∧ wakeResult.ret_value ≠ ESP_FAIL ∧
      wakeResult.wakeup_state = WakenetState.WAKENET_DETECTED ∧
      wakeResult.wake_word_index = ((2 : Nat) : Int) ∧ 1 ≤ 2 ∧ 2 ≤ armed.wake_words_.length ∧
      ∃ s', AudioDetectionTaskCycle 4 armed (some wakeResult) = Outcome.ok s' ∧
        IsDetectionRunning s' = false ∧
        s'.last_detected_wake_word_ = "ok device" ∧
        wakeCalls s'.callbacks = ["ok device"] := by
  obtain ⟨s', phrase, hp, hc, hg, hl, hcalls⟩ :=
    wake_word_resolution 4 armed wakeResult 2 rfl (by decide) rfl rfl (by decide) (by decide)
  have hphrase : phrase = "ok device" := by
    have : armed.wake_words_[2 - 1]? = some "ok device" := rfl
    rw [this] at hp
    exact (Option.some.inj hp).symm
  subst hphrase
  exact ⟨rfl, by decide, rfl, rfl, by decide, by decide, s', hc, hg, hl, hcalls⟩

/-- C10 (VAD transition rule). In a detection cycle that processes a fetched
result with a voice-activity callback registered: when the VAD state is `SPEECH`
and the speaking state was `false`, the callback is invoked once, with `true`,
and the speaking state becomes `true`; when the VAD state is `SILENCE` and the
speaking state was `true`, the callback is invoked once, with `false`, and the
speaking state becomes `false`; in every other case the callback is not invoked
and the speaking state is unchanged. Hence the invocation with `true` (with
`false`) happens exactly in the first (second) case. -/
theorem vad_transition_rule (MAX_PCM_BUFFER_SIZE : Nat) (s s' : WakeWordDetect)
    (res : AfeFetchResult) (hcb : s.vad_state_change_callback_ = true)
    (hret : res.ret_value ≠ ESP_FAIL)
    (hcycle : AudioDetectionTaskCycle MAX_PCM_BUFFER_SIZE s (some res) = Outcome.ok s') :
    (res.vad_state = VadState.AFE_VAD_SPEECH ∧ s.is_speaking_ = false →
        s'.is_speaking_ = true ∧ vadCalls s'.callbacks = vadCalls s.callbacks ++ [true]) ∧
      (res.vad_state = VadState.AFE_VAD_SILENCE ∧ s.is_speaking_ = true →
        s'.is_speaking_ = false ∧ vadCalls s'.callbacks = vadCalls s.callbacks ++ [false]) ∧
      (¬ (res.vad_state = VadState.AFE_VAD_SPEECH ∧ s.is_speaking_ = false) ∧
          ¬ (res.vad_state = VadState.AFE_VAD_SILENCE ∧ s.is_speaking_ = true) →
        s'.is_speaking_ = s.is_speaking_ ∧ vadCalls s'.callbacks = vadCalls s.callbacks) ∧
      (vadCalls s'.callbacks = vadCalls s.callbacks ++ [true] ↔
        res.vad_state = VadState.AFE_VAD_SPEECH ∧ s.is_speaking_ = false) ∧
      (vadCalls s'.callbacks = vadCalls s.callbacks ++ [false] ↔
        res.vad_state = VadState.AFE_VAD_SILENCE ∧ s.is_speaking_ = true) := by
  have hgate := AudioDetectionTaskCycle_ok_gate _ _ _ _ hcycle
  rw [AudioDetectionTaskCycle_fetched _ _ _ hgate hret] at hcycle
  obtain ⟨hw1, hw2⟩ := wakeupStateCheck_vad _ _ _ hcycle
  obtain ⟨_, hS2, hS3, hS4, _, _⟩ :=
    StoreWakeWordData_frame MAX_PCM_BUFFER_SIZE s res.data (res.data_size / 2)
  obtain ⟨c1, c2, c3⟩ :=
    vadStateChange_cases
      (StoreWakeWordData MAX_PCM_BUFFER_SIZE s res.data (res.data_size / 2)) res.vad_state
      (hS4.trans hcb)
  rw [hS3, hS2, ← hw1, ← hw2] at c1 c2 c3
  refine ⟨c1, c2, c3, ⟨?_, fun h => (c1 h).2⟩, ⟨?_, fun h => (c2 h).2⟩⟩
  · intro h
    by_contra hn
    by_cases hsil : res.vad_state = VadState.AFE_VAD_SILENCE ∧ s.is_speaking_ = true
    · have := (c2 hsil).2
      rw [h] at this
      simp at this
    · have := (c3 ⟨hn, hsil⟩).2
      rw [h] at this
      simp at this
  · intro h
    by_contra hn
    by_cases hsp : res.vad_state = VadState.AFE_VAD_SPEECH ∧ s.is_speaking_ = false
    · have := (c1 hsp).2
      rw [h] at this
      simp at this
    · have := (c3 ⟨hsp, hn⟩).2
      rw [h] at this
      simp at this

/-- C10 at the wake-word scenario: speech arrives while the speaking state is
`false`, so the callback is invoked with `true` and the state becomes `true`. -/
theorem vad_transition_rule_witness :
    armed.vad_state_change_callback_ = true ∧ wakeResult.ret_value ≠ ESP_FAIL ∧
      AudioDetectionTaskCycle 4 armed (some wakeResult) = Outcome.ok afterWake ∧
      afterWake.is_speaking_ = true ∧
      vadCalls afterWake.callbacks = vadCalls armed.callbacks ++ [true] :=
  ⟨rfl, by decide, by decide,
    (vad_transition_rule 4 armed afterWake wakeResult rfl (by decide) (by decide)).1
      ⟨rfl, rfl⟩⟩

/-! ## Termination of the ingest loop -/

theorem feedLoop_exact {C : Nat} (hC : 0 < C) :
    ∀ (fuel : Nat) (buf : List Sample) (fed : List (List Sample)),
      buf.length / C < fuel →
      feedLoop fuel C buf fed = some (leftover C buf, fed ++ consecutiveBlocks C buf) := by
  intro fuel
  induction fuel with
  | zero => intro buf fed h; exact absurd h (Nat.not_lt_zero _)
  | succ n ih =>
    intro buf fed h
    unfold feedLoop
    by_cases hge : buf.length ≥ C
    · have hd := div_of_le hC hge
      rw [hd] at h
      have hlt : (buf.drop C).length / C < n := by
        rw [List.length_drop]; exact Nat.lt_of_succ_lt_succ h
      rw [if_pos hge, ih _ _ hlt, leftover_of_le hC hge, consecutiveBlocks_of_le hC hge]
      simp
    · rw [if_neg hge, leftover_of_lt (by omega), consecutiveBlocks_of_lt (by omega)]
      simp

theorem feedLoop_short {C : Nat} (hC : 0 < C) :
    ∀ (fuel : Nat) (buf : List Sample) (fed : List (List Sample)),
      fuel ≤ buf.length / C → feedLoop fuel C buf fed = none := by
  intro fuel
  induction fuel with
  | zero => intro buf fed _; rfl
  | succ n ih =>
    intro buf fed h
    have hge : buf.length ≥ C := by
      by_contra hlt
      rw [Nat.div_eq_of_lt (by omega)] at h
      omega
    have hd := div_of_le hC hge
    rw [hd] at h
    have hle : n ≤ (buf.drop C).length / C := by
      rw [List.length_drop]; exact Nat.le_of_succ_le_succ h
    unfold feedLoop
    rw [if_pos hge, ih _ _ hle]

/-- With a chunk length of zero the loop condition holds at every evaluation:
no amount of fuel lets the loop exit. -/
theorem feedLoop_zero :
    ∀ (fuel : Nat) (buf : List Sample) (fed : List (List Sample)),
      feedLoop fuel 0 buf fed = none := by
  intro fuel
  induction fuel with
  | zero => intro buf fed; rfl
  | succ n ih =>
    intro buf fed
    unfold feedLoop
    rw [if_pos (Nat.zero_le _), ih]

/-- C16 (termination and exact counts of `Feed`). Let the accumulator hold `b`
samples, the input `n` samples, and write `C = chunksize * channels_`.
If `C > 0`, the loop of `Feed` exits at evaluation number `(b + n) / C + 1` of
its condition (it returns with any larger allowance and with no smaller one),
having handed over exactly `(b + n) / C` chunks and leaving exactly
`(b + n) % C` samples. If `C = 0`, the loop does not exit, whatever the number of
evaluations allowed. -/
theorem Feed_terminates_with_exact_counts (chunksize : Nat) (s : WakeWordDetect)
    (data : List Sample) :
    (0 < chunksize * s.channels_ →
      ∃ s' chunks, Feed chunksize s data = some s' ∧
        (∀ fuel, (s.input_buffer_.length + data.length) / (chunksize * s.channels_) < fuel →
          FeedFuel fuel chunksize s data = some s') ∧
        (∀ fuel, fuel ≤ (s.input_buffer_.length + data.length) / (chunksize * s.channels_) →
          FeedFuel fuel chunksize s data = none) ∧
        s'.afe_fed = s.afe_fed ++ chunks ∧
        chunks.length = (s.input_buffer_.length + data.length) / (chunksize * s.channels_) ∧
        s'.input_buffer_.length
          = (s.input_buffer_.length + data.length) % (chunksize * s.channels_)) ∧
      (chunksize * s.channels_ = 0 →
        (∀ fuel, FeedFuel fuel chunksize s data = none) ∧ Feed chunksize s data = none) := by
  constructor
  · intro hC
    refine ⟨_, _, Feed_eq chunksize s data hC, ?_, ?_, rfl, ?_, ?_⟩
    · intro fuel hf
      unfold FeedFuel
      simp only []
      rw [feedLoop_exact hC _ _ _ (by rw [List.length_append]; exact hf)]
    · intro fuel hf
      unfold FeedFuel
      simp only []
      rw [feedLoop_short hC _ _ _ (by rw [List.length_append]; exact hf)]
    · rw [consecutiveBlocks_length, List.length_append]
    · show (leftover _ _).length = _
      rw [leftover_length, List.length_append]
  · intro h0
    have hall : ∀ fuel, FeedFuel fuel chunksize s data = none := by
      intro fuel
      unfold FeedFuel
      simp only []
      rw [h0, feedLoop_zero]
    exact ⟨hall, hall _⟩

/-- C16 at concrete calls: two channels and `get_feed_chunksize` 2 (chunk length
4), three samples buffered and six fed: two chunks, one sample left, loop exit at
the third evaluation; and with zero channels the loop never exits. -/
theorem Feed_terminates_with_exact_counts_witness :
    (0 < 2 * ({ initial 2 [] with input_buffer_ := [1, 2, 3] } : WakeWordDetect).channels_ ∧
      ∃ s' chunks,
        Feed 2 { initial 2 [] with input_buffer_ := [1, 2, 3] } [4, 5, 6, 7, 8, 9] = some s' ∧
        FeedFuel 3 2 { initial 2 [] with input_buffer_ := [1, 2, 3] } [4, 5, 6, 7, 8, 9]
          = some s' ∧
        FeedFuel 2 2 { initial 2 [] with input_buffer_ := [1, 2, 3] } [4, 5, 6, 7, 8, 9]
          = none ∧
        s'.afe_fed = chunks ∧ chunks.length = 2 ∧ s'.input_buffer_.length = 1) ∧
      (2 * (initial 0 []).channels_ = 0 ∧
        ∀ fuel, FeedFuel fuel 2 (initial 0 []) [4, 5, 6] = none) := by
  refine ⟨⟨by decide, ?_⟩, rfl, ?_⟩
  · obtain ⟨s', chunks, h1, h2, h3, h4, h5, h6⟩ :=
      (Feed_terminates_with_exact_counts 2
        { initial 2 [] with input_buffer_ := [1, 2, 3] } [4, 5, 6, 7, 8, 9]).1 (by decide)
    exact ⟨s', chunks, h1, h2 3 (by decide), h3 2 (by decide), by simpa [initial] using h4,
      h5, h6⟩
  · exact ((Feed_terminates_with_exact_counts 2 (initial 0 []) [4, 5, 6]).2 rfl).1

/-! ## The raw retention queue: what is kept -/

/-- The raw queue after `StoreWakeWordData`. -/
theorem StoreWakeWordData_queue (MAX_PCM_BUFFER_SIZE : Nat) (s : WakeWordDetect)
    (data : List Sample) (size : Nat) :
    (StoreWakeWordData MAX_PCM_BUFFER_SIZE s data size).wake_word_pcm_
      = (if s.wake_word_pcm_.length ≥ MAX_PCM_BUFFER_SIZE then s.wake_word_pcm_.tail
          else s.wake_word_pcm_) ++ [data.take size] := by
  unfold StoreWakeWordData
  simp only []
  split
  · split
    · next h => rw [h]; rfl
    · next h => rw [h]; rfl
  · rfl

/-- A call depends on `data` and `size` only through the frame `data[0 .. size)`. -/
theorem StoreWakeWordData_take (MAX_PCM_BUFFER_SIZE : Nat) (s : WakeWordDetect)
    (data : List Sample) (size : Nat) :
    StoreWakeWordData MAX_PCM_BUFFER_SIZE s data size
      = StoreWakeWordData MAX_PCM_BUFFER_SIZE s (data.take size) (data.take size).length := by
  unfold StoreWakeWordData
  simp only [List.take_length]

theorem mostRecent_of_le {α : Type} (K : Nat) (l : List α) (h : l.length ≤ K) :
    mostRecent K l = l := by
  unfold mostRecent
  rw [Nat.sub_eq_zero_of_le h, List.drop_zero]

theorem mostRecent_length {α : Type} (K : Nat) (l : List α) :
    (mostRecent K l).length = min l.length K := by
  unfold mostRecent
  rw [List.length_drop]
  omega

theorem mostRecent_append {α : Type} (K : Nat) (a b : List α) :
    mostRecent K (mostRecent K a ++ b) = mostRecent K (a ++ b) := by
  by_cases h : a.length ≤ K
  · rw [mostRecent_of_le K a h]
  · have hlen := mostRecent_length K a
    unfold mostRecent at hlen ⊢
    have e1 : (List.drop (a.length - K) a ++ b).length - K = b.length := by
      rw [List.length_append, hlen]; omega
    have e2 : (a ++ b).length - K = (a.length - K) + b.length := by
      rw [List.length_append]; omega
    have e3 : List.drop (a.length - K) (a ++ b) = List.drop (a.length - K) a ++ b :=
      List.drop_append_of_le_length (by omega)
    rw [e1, e2, ← List.drop_drop, e3]

/-- One call keeps the `max M 1` most recent frames. -/
theorem StoreWakeWordData_mostRecent (M : Nat) (s : WakeWordDetect)
    (data : List Sample) (size : Nat) (h : s.wake_word_pcm_.length ≤ max M 1) :
    (StoreWakeWordData M s data size).wake_word_pcm_
      = mostRecent (max M 1) (s.wake_word_pcm_ ++ [data.take size]) := by
  rw [StoreWakeWordData_queue]
  by_cases hfull : s.wake_word_pcm_.length = max M 1
  · have hge : s.wake_word_pcm_.length ≥ M := by omega
    rw [if_pos hge]
    unfold mostRecent
    have e : (s.wake_word_pcm_ ++ [List.take size data]).length - max M 1 = 1 := by
      rw [List.length_append, List.length_singleton]; omega
    rw [e, List.drop_append_of_le_length (by omega), List.drop_one]
  · have hlt : s.wake_word_pcm_.length < max M 1 := by omega
    rw [mostRecent_of_le _ _ (by rw [List.length_append, List.length_singleton]; omega)]
    by_cases hge : s.wake_word_pcm_.length ≥ M
    · have h0 : s.wake_word_pcm_ = [] := by
        apply List.length_eq_zero.mp
        omega
      rw [if_pos hge, h0]
      rfl
    · rw [if_neg hge]

theorem storeAll_mostRecent (M : Nat) :
    ∀ (frames : List (List Sample)) (s : WakeWordDetect),
      s.wake_word_pcm_.length ≤ max M 1 →
      (storeAll M s frames).wake_word_pcm_
        = mostRecent (max M 1) (s.wake_word_pcm_ ++ frames) := by
  intro frames
  induction frames with
  | nil =>
    intro s h
    rw [List.append_nil, mostRecent_of_le _ _ h]
    rfl
  | cons f fs ih =>
    intro s h
    have h1 := StoreWakeWordData_mostRecent M s f f.length h
    rw [List.take_length] at h1
    show (storeAll M (StoreWakeWordData M s f f.length) fs).wake_word_pcm_ = _
    rw [ih _ (by rw [h1, mostRecent_length]; omega), h1, mostRecent_append]
    simp

/-- C17 (the raw queue is bounded in number of frames). Whatever the value `M`
of `MAX_PCM_BUFFER_SIZE`, after any sequence of `StoreWakeWordData` calls on the
empty queue the queue holds the `max M 1` most recent frames in arrival order
(all of them if there are fewer): at most `max M 1` frames, and at least one as
soon as one call was made. -/
theorem raw_queue_frame_bound (M : Nat) (s : WakeWordDetect)
    (frames : List (List Sample)) (hempty : s.wake_word_pcm_ = []) :
    (storeAll M s frames).wake_word_pcm_ = mostRecent (max M 1) frames ∧
      (storeAll M s frames).wake_word_pcm_.length ≤ max M 1 ∧
      (storeAll M s frames).wake_word_pcm_.length = min frames.length (max M 1) ∧
      (frames ≠ [] → (storeAll M s frames).wake_word_pcm_ ≠ []) := by
  have h := storeAll_mostRecent M frames s (by rw [hempty]; exact Nat.zero_le _)
  rw [hempty, List.nil_append] at h
  have hl := mostRecent_length (max M 1) frames
  refine ⟨h, ?_, ?_, ?_⟩
  · rw [h, hl]; omega
  · rw [h, hl]
  · intro hne hq
    have hpos : 0 < frames.length := List.length_pos.mpr hne
    rw [h] at hq
    rw [hq, List.length_nil] at hl
    omega

/-- C17 at concrete calls: limit 2, four frames stored on the empty queue; the
two most recent ones are held. With limit 0 one frame is held. -/
theorem raw_queue_frame_bound_witness :
    (initial 1 []).wake_word_pcm_ = [] ∧
      (storeAll 2 (initial 1 []) [[1], [2], [3], [4]]).wake_word_pcm_ = [[3], [4]] ∧
      (storeAll 0 (initial 1 []) [[1], [2], [3], [4]]).wake_word_pcm_ = [[4]] :=
  ⟨rfl, (raw_queue_frame_bound 2 (initial 1 []) [[1], [2], [3], [4]] rfl).1,
    (raw_queue_frame_bound 0 (initial 1 []) [[1], [2], [3], [4]] rfl).1⟩

/-! ## The detection cycle: retention and skipped cycles -/

theorem vadStateChange_queue (s : WakeWordDetect) (v : VadState) :
    (vadStateChange s v).wake_word_pcm_ = s.wake_word_pcm_ ∧
      (vadStateChange s v).wake_words_ = s.wake_words_ := by
  unfold vadStateChange
  split
  · split
    · exact ⟨rfl, rfl⟩
    · split <;> exact ⟨rfl, rfl⟩
  · exact ⟨rfl, rfl⟩

theorem wakeupStateCheck_queue (s s' : WakeWordDetect) (res : AfeFetchResult)
    (h : wakeupStateCheck s res = Outcome.ok s') :
    s'.wake_word_pcm_ = s.wake_word_pcm_ := by
  unfold wakeupStateCheck at h
  split at h
  · simp only [] at h
    split at h
    · cases h
    · split at h <;> (cases h; rfl)
  · cases h
    rfl

/-- An index between 1 and the size of the catalog designates a phrase. -/
theorem wakeWordAt_in_range (wake_words : List String) (i : Int)
    (h1 : 1 ≤ i) (h2 : i ≤ wake_words.length) :
    ∃ w, wakeWordAt wake_words i = some w := by
  unfold wakeWordAt
  rw [if_neg (by omega)]
  have hlt : (i - 1).toNat < wake_words.length := by omega
  exact ⟨_, List.getElem?_eq_getElem hlt⟩

/-- The wake block ends whenever a wake event carries an index of the catalog. -/
theorem wakeupStateCheck_defined (s : WakeWordDetect) (res : AfeFetchResult)
    (hidx : res.wakeup_state = WakenetState.WAKENET_DETECTED →
      1 ≤ res.wake_word_index ∧ res.wake_word_index ≤ s.wake_words_.length) :
    ∃ s', wakeupStateCheck s res = Outcome.ok s' := by
  by_cases hwake : res.wakeup_state = WakenetState.WAKENET_DETECTED
  · obtain ⟨w, hw⟩ := wakeWordAt_in_range s.wake_words_ res.wake_word_index
      (hidx hwake).1 (hidx hwake).2
    obtain ⟨s', h, _⟩ := wakeupStateCheck_detected s res w hwake hw
    exact ⟨s', h⟩
  · unfold wakeupStateCheck
    rw [if_neg hwake]
    exact ⟨s, rfl⟩

/-- C13 (unconditional retention). In a detection cycle that runs (gate set) on a
fetched result not marked failed, whatever the result's VAD state and wake state
(a wake event carrying an index of the catalog), the cycle ends and the raw queue
afterwards is the frames kept from before, in their order (all of them, or all
but the oldest), followed by the result's frame as newest element; the frame is
the first `data_size / 2` samples of the result, in order. -/
theorem unconditional_retention (MAX_PCM_BUFFER_SIZE : Nat) (s : WakeWordDetect)
    (res : AfeFetchResult) (hgate : s.detection_running_event = true)
    (hret : res.ret_value ≠ ESP_FAIL)
    (hidx : res.wakeup_state = WakenetState.WAKENET_DETECTED →
      1 ≤ res.wake_word_index ∧ res.wake_word_index ≤ s.wake_words_.length) :
    ∃ s' kept, AudioDetectionTaskCycle MAX_PCM_BUFFER_SIZE s (some res) = Outcome.ok s' ∧
      s'.wake_word_pcm_ = kept ++ [res.data.take (res.data_size / 2)] ∧
      (kept = s.wake_word_pcm_ ∨ kept = s.wake_word_pcm_.tail) ∧
      (res.data_size / 2 ≤ res.data.length →
        (res.data.take (res.data_size / 2)).length = res.data_size / 2) := by
  obtain ⟨_, _, _, _, _, hS6⟩ :=
    StoreWakeWordData_frame MAX_PCM_BUFFER_SIZE s res.data (res.data_size / 2)
  obtain ⟨hV1, hV2⟩ := vadStateChange_queue
    (StoreWakeWordData MAX_PCM_BUFFER_SIZE s res.data (res.data_size / 2)) res.vad_state
  obtain ⟨s', hs'⟩ := wakeupStateCheck_defined
    (vadStateChange
      (StoreWakeWordData MAX_PCM_BUFFER_SIZE s res.data (res.data_size / 2)) res.vad_state)
    res (by rw [hV2, hS6]; exact hidx)
  have hq := wakeupStateCheck_queue _ _ _ hs'
  rw [hV1, StoreWakeWordData_queue] at hq
  refine ⟨s', _, ?_, hq, ?_, ?_⟩
  · rw [AudioDetectionTaskCycle_fetched _ _ _ hgate hret, hs']
  · split
    · exact Or.inr rfl
    · exact Or.inl rfl
  · intro hlen
    rw [List.length_take]
    omega

/-- C13 at the wake-word scenario: speech and a wake event in the same result,
and the frame `[1, 2, 3, 4]` is retained. -/
theorem unconditional_retention_witness :
    armed.detection_running_event = true ∧ wakeResult.ret_value ≠ ESP_FAIL ∧
      (wakeResult.wakeup_state = WakenetState.WAKENET_DETECTED →
        1 ≤ wakeResult.wake_word_index ∧
          wakeResult.wake_word_index ≤ armed.wake_words_.length) ∧
      ∃ s' kept, AudioDetectionTaskCycle 4 armed (some wakeResult) = Outcome.ok s' ∧
        s'.wake_word_pcm_ = kept ++ [[1, 2, 3, 4]] ∧
        (kept = armed.wake_word_pcm_ ∨ kept = armed.wake_word_pcm_.tail) := by
  obtain ⟨s', kept, h1, h2, h3, _⟩ :=
    unconditional_retention 4 armed wakeResult rfl (by decide) (fun _ => by decide)
  exact ⟨rfl, by decide, fun _ => by decide, s', kept, h1, h2, h3⟩

/-- A cycle that runs on an absent or failed result returns the object as is. -/
theorem fetch_failure_skipped_aux (MAX_PCM_BUFFER_SIZE : Nat) (s : WakeWordDetect)
    (res : Option AfeFetchResult)
    (hfail : res = none ∨ ∃ r, res = some r ∧ r.ret_value = ESP_FAIL)
    (hgate : s.detection_running_event = true) :
    AudioDetectionTaskCycle MAX_PCM_BUFFER_SIZE s res = Outcome.ok s := by
  unfold AudioDetectionTaskCycle
  rw [if_neg (by rw [hgate]; decide)]
  rcases hfail with rfl | ⟨r, rfl, hr⟩
  · rfl
  · simp only [if_pos hr]

/-- C14 (a failed fetch is skipped without effect). A detection cycle whose fetch
returns no result, or a result marked failed, ends with the object exactly as it
was (gate, speaking state, last detected wake word, both queues, both running
totals, and the record of callback invocations, so neither callback is invoked);
while the gate is clear the cycle waits, which changes nothing either. -/
theorem fetch_failure_skipped (MAX_PCM_BUFFER_SIZE : Nat) (s : WakeWordDetect)
    (res : Option AfeFetchResult)
    (hfail : res = none ∨ ∃ r, res = some r ∧ r.ret_value = ESP_FAIL) :
    (s.detection_running_event = true →
        AudioDetectionTaskCycle MAX_PCM_BUFFER_SIZE s res = Outcome.ok s) ∧
      (s.detection_running_event = false →
        AudioDetectionTaskCycle MAX_PCM_BUFFER_SIZE s res = Outcome.blocked) := by
  refine ⟨?_, AudioDetectionTaskCycle_blocked MAX_PCM_BUFFER_SIZE s res⟩
  intro hgate
  unfold AudioDetectionTaskCycle
  rw [if_neg (by rw [hgate]; decide)]
  rcases hfail with rfl | ⟨r, rfl, hr⟩
  · rfl
  · simp only [if_pos hr]

/-- C14 at the wake-word scenario with the result marked failed: although it
carries speech and a wake event, the object is left as it was. -/
theorem fetch_failure_skipped_witness :
    (some { wakeResult with ret_value := ESP_FAIL } = (none : Option AfeFetchResult) ∨
        ∃ r, some { wakeResult with ret_value := ESP_FAIL } = some r ∧
          r.ret_value = ESP_FAIL) ∧
      AudioDetectionTaskCycle 4 armed (some { wakeResult with ret_value := ESP_FAIL })
        = Outcome.ok armed ∧
      AudioDetectionTaskCycle 4 armed none = Outcome.ok armed :=
  ⟨Or.inr ⟨_, rfl, rfl⟩,
    (fetch_failure_skipped 4 armed (some { wakeResult with ret_value := ESP_FAIL })
      (Or.inr ⟨_, rfl, rfl⟩)).1 rfl,
    (fetch_failure_skipped 4 armed none (Or.inl rfl)).1 rfl⟩

/-! ## The compressed retention queue and the running totals -/

theorem testEncode_bytes (pcm : List Sample) : opusBytes (testEncode pcm) = pcm.length := by
  simp [opusBytes, testEncode]

/-- Whatever the limit is, an encode pass over two frames whose packets are each
larger than the limit leaves both packets and the sentinel in the compressed
queue. -/
theorem EncodeWakeWordData_any_limit (M : Nat) :
    ¬ OpusEvictionInvariant M
      (EncodeWakeWordData testEncode
        { initial 1 [] with
          wake_word_pcm_ := [testFrame (M + 1) 0, testFrame (M + 1) 1] }).wake_word_opus_ := by
  rw [EncodeWakeWordData_eq]
  simp only [OpusEvictionInvariant, opusBytes, testEncode, List.map_cons, List.map_nil,
    List.flatten_cons, List.flatten_nil, List.append_nil, List.cons_append, List.nil_append,
    List.length_map, testFrame_length, List.sum_cons, List.sum_nil, List.length_cons,
    List.length_nil]
  omega

/-- C11 (eviction invariant of the compressed queue), evaluated on the code: with
`MAX_OPUS_BUFFER_SIZE = 4`, two raw frames of three samples and an encoder that
emits one three-byte packet per frame, the encode pass leaves both packets and the
sentinel in the compressed queue: 6 bytes in three packets, with no eviction on
any append and a running total still at 0. The invariant of the specification does
not hold in that state. -/
theorem EncodeWakeWordData_breaks_opus_ceiling :
    (EncodeWakeWordData testEncode
        (storeAll 4 (initial 1 []) [[1, 2, 3], [4, 5, 6]])).wake_word_opus_
        = [[1, 2, 3], [4, 5, 6], []] ∧
      opusBytes (EncodeWakeWordData testEncode
        (storeAll 4 (initial 1 []) [[1, 2, 3], [4, 5, 6]])).wake_word_opus_ = 6 ∧
      (EncodeWakeWordData testEncode
        (storeAll 4 (initial 1 []) [[1, 2, 3], [4, 5, 6]])).total_opus_size_ = 0 ∧
      ¬ OpusEvictionInvariant 4
        (EncodeWakeWordData testEncode
          (storeAll 4 (initial 1 []) [[1, 2, 3], [4, 5, 6]])).wake_word_opus_ := by
  decide

/-- C12 (running byte totals), evaluated on the code: one frame of two samples is
stored, then one encode pass runs, then one packet is pulled. After the store the
raw total is exact (4). After the pass the raw queue is empty but
`total_pcm_size_` is still 4, and the compressed queue holds 2 bytes while
`total_opus_size_` is 0. After the pull the compressed queue holds 0 bytes and
`total_opus_size_` has wrapped to `2 ^ 32 - 2`. -/
theorem running_totals_not_exact :
    (storeAll 4 (initial 1 []) [[1, 2]]).total_pcm_size_ = 4 ∧
      pcmBytes (storeAll 4 (initial 1 []) [[1, 2]]).wake_word_pcm_ = 4 ∧
      (EncodeWakeWordData testEncode (storeAll 4 (initial 1 []) [[1, 2]])).wake_word_pcm_
        = [] ∧
      (EncodeWakeWordData testEncode (storeAll 4 (initial 1 []) [[1, 2]])).total_pcm_size_
        = 4 ∧
      (EncodeWakeWordData testEncode (storeAll 4 (initial 1 []) [[1, 2]])).wake_word_opus_
        = [[1, 2], []] ∧
      (EncodeWakeWordData testEncode (storeAll 4 (initial 1 []) [[1, 2]])).total_opus_size_
        = 0 ∧
      GetWakeWordOpus 4 (EncodeWakeWordData testEncode (storeAll 4 (initial 1 []) [[1, 2]]))
        = Outcome.ok (true, [1, 2],
            { initial 1 [] with
              wake_word_opus_ := [[]]
              total_pcm_size_ := 4
              total_opus_size_ := 4294967294 }) := by
  decide

/-- With a limit of zero and one packet staged, the over-limit block empties the
queue and `front()` is then applied to an empty queue. -/
theorem GetWakeWordOpus_limit_zero_undefined :
    GetWakeWordOpus 0 { initial 1 [] with wake_word_opus_ := [[1]] } = Outcome.undefined := by
  decide

/-- C19 (`GetWakeWordOpus` never reads the front of an empty queue). For a limit
`MAX_OPUS_BUFFER_SIZE` of at least 1 and a non-empty compressed queue (what the
wait guarantees), the queue is still non-empty after the over-limit block, where
`front()` is read and `pop_front()` applied, and the call returns. -/
theorem GetWakeWordOpus_front_on_nonempty (MAX_OPUS_BUFFER_SIZE : Nat) (s : WakeWordDetect)
    (hM : 1 ≤ MAX_OPUS_BUFFER_SIZE) (hq : s.wake_word_opus_ ≠ []) :
    (evictOverLimit MAX_OPUS_BUFFER_SIZE s).wake_word_opus_ ≠ [] ∧
      ∃ b p s', GetWakeWordOpus MAX_OPUS_BUFFER_SIZE s = Outcome.ok (b, p, s') := by
  have hne : (evictOverLimit MAX_OPUS_BUFFER_SIZE s).wake_word_opus_ ≠ [] := by
    unfold evictOverLimit
    split
    · next hgt =>
      split
      · next h => exact absurd h hq
      · next front rest h =>
        rw [h, List.length_cons] at hgt
        intro hrest
        simp only [] at hrest
        rw [hrest, List.length_nil] at hgt
        omega
    · exact hq
  refine ⟨hne, ?_⟩
  unfold GetWakeWordOpus
  have he : s.wake_word_opus_.isEmpty = false := by
    cases h : s.wake_word_opus_ with
    | nil => exact absurd h hq
    | cons _ _ => rfl
  rw [he]
  simp only [Bool.false_eq_true, if_false]
  split
  · next h => exact absurd h hne
  · exact ⟨_, _, _, rfl⟩

/-- C19 at a concrete queue: limit 1 and two packets staged; the over-limit
block drops one packet and one is left for `front()`. -/
theorem GetWakeWordOpus_front_on_nonempty_witness :
    1 ≤ 1 ∧
      ({ initial 1 [] with wake_word_opus_ := [[1], [2]] } : WakeWordDetect).wake_word_opus_
        ≠ [] ∧
      (evictOverLimit 1 { initial 1 [] with wake_word_opus_ := [[1], [2]] }).wake_word_opus_
        ≠ [] ∧
      ∃ b p s', GetWakeWordOpus 1 { initial 1 [] with wake_word_opus_ := [[1], [2]] }
        = Outcome.ok (b, p, s') :=
  ⟨by decide, by decide,
    GetWakeWordOpus_front_on_nonempty 1 { initial 1 [] with wake_word_opus_ := [[1], [2]] }
      (by decide) (by decide)⟩

/-! ## The wake-word catalog -/

theorem getlineChars_no_delim (delim : Char) :
    ∀ w : List Char, delim ∉ w → getlineChars delim w = (w, []) := by
  intro w
  induction w with
  | nil => intro _; rfl
  | cons c cs ih =>
    intro h
    rw [List.mem_cons, not_or] at h
    unfold getlineChars
    rw [if_neg (fun e => h.1 e.symm), ih h.2]

theorem getlineChars_delim (delim : Char) (rest : List Char) :
    ∀ w : List Char, delim ∉ w → getlineChars delim (w ++ delim :: rest) = (w, rest) := by
  intro w
  induction w with
  | nil =>
    intro _
    show getlineChars delim (delim :: rest) = _
    rw [getlineChars, if_pos rfl]
  | cons c cs ih =>
    intro h
    rw [List.mem_cons, not_or] at h
    rw [List.cons_append]
    unfold getlineChars
    rw [if_neg (fun e => h.1 e.symm), ih h.2]

theorem intercalate_go_data (sep : String) :
    ∀ (l : List String) (acc : String),
      (String.intercalate.go acc sep l).data
        = acc.data ++ (l.map (fun a => sep.data ++ a.data)).flatten := by
  intro l
  induction l with
  | nil => intro acc; simp [String.intercalate.go]
  | cons a as ih =>
    intro acc
    rw [String.intercalate.go, ih]
    simp [String.data_append, List.append_assoc]

/-- The characters of the phrases joined with `;`. -/
theorem intercalate_cons_data (p : String) (ps : List String) :
    (String.intercalate ";" (p :: ps)).data
      = p.data ++ (ps.map (fun a => ';' :: a.data)).flatten := by
  rw [String.intercalate, intercalate_go_data]
  rfl

/-- The loop over the characters of a non-empty list of phrases joined with `;`. -/
theorem getlineLoop_phrases :
    ∀ (ps : List String) (p : String) (ws : List String) (fuel : Nat),
      ';' ∉ p.data → (∀ q ∈ ps, ';' ∉ q.data) →
      (∀ q, (p :: ps).getLast? = some q → q ≠ "") →
      (p.data ++ (ps.map (fun a => ';' :: a.data)).flatten).length < fuel →
      getlineLoop fuel (p.data ++ (ps.map (fun a => ';' :: a.data)).flatten) ws
        = some (ws ++ p :: ps) := by
  intro ps
  induction ps with
  | nil =>
    intro p ws fuel hp _ hlast hfuel
    have hpne : p.data ≠ [] := by
      intro h
      apply hlast p rfl
      cases p
      simp only [] at h
      rw [h]
    simp only [List.map_nil, List.flatten_nil, List.append_nil] at hfuel ⊢
    obtain ⟨c, cs, hcs⟩ := List.exists_cons_of_ne_nil hpne
    have hlen : 2 ≤ fuel := by rw [hcs, List.length_cons] at hfuel; omega
    obtain ⟨k, rfl⟩ : ∃ k, fuel = k + 2 := ⟨fuel - 2, by omega⟩
    have hg : getline ';' p.data = some (p.data, []) := by
      rw [← getlineChars_no_delim ';' p.data hp, hcs]
      rfl
    rw [getlineLoop, hg]
    simp only []
    rw [getlineLoop]
    rfl
  | cons q qs ih =>
    intro p ws fuel hp hps hlast hfuel
    have hq : ';' ∉ q.data := hps q (List.mem_cons_self _ _)
    have hqs : ∀ r ∈ qs, ';' ∉ r.data := fun r hr => hps r (List.mem_cons_of_mem _ hr)
    have hlast2 : ∀ r, (q :: qs).getLast? = some r → r ≠ "" := by
      intro r hr
      apply hlast r
      rw [List.getLast?_cons_cons]
      exact hr
    have hchars : p.data ++ ((q :: qs).map (fun a => ';' :: a.data)).flatten
        = p.data ++ ';' :: (q.data ++ (qs.map (fun a => ';' :: a.data)).flatten) := by
      simp
    rw [hchars] at hfuel ⊢
    obtain ⟨k, rfl⟩ : ∃ k, fuel = k + 1 := ⟨fuel - 1, by
      rw [List.length_append, List.length_cons] at hfuel; omega⟩
    have hg : getline ';'
        (p.data ++ ';' :: (q.data ++ (qs.map (fun a => ';' :: a.data)).flatten))
        = some (p.data, q.data ++ (qs.map (fun a => ';' :: a.data)).flatten) := by
      rw [← getlineChars_delim ';' _ p.data hp]
      cases hd : p.data with
      | nil => rfl
      | cons _ _ => rfl
    rw [getlineLoop, hg]
    simp only []
    rw [ih q (ws ++ [String.mk p.data]) k hq hqs hlast2
      (by rw [List.length_append, List.length_cons] at hfuel; omega)]
    simp

/-- C15 (wake-word catalog parsing round trip). For every list of phrases in
which no phrase contains `;` and the last phrase is not empty, the `getline` loop
of `Initialize` applied to the phrases joined with `;` appends exactly those
phrases, in the same order, to the catalog; starting from an empty catalog the
catalog is that list. The empty string leaves the catalog as it is, so an empty
catalog stays empty. -/
theorem wake_words_round_trip (phrases : List String) (s : WakeWordDetect)
    (hsemi : ∀ p ∈ phrases, ';' ∉ p.data)
    (hlast : ∀ p, phrases.getLast? = some p → p ≠ "") :
    splitWakeWords (String.intercalate ";" phrases) s
        = some { s with wake_words_ := s.wake_words_ ++ phrases } ∧
      (s.wake_words_ = [] →
        ∃ s', splitWakeWords (String.intercalate ";" phrases) s = some s' ∧
          s'.wake_words_ = phrases) ∧
      splitWakeWords "" s = some s := by
  have hempty : splitWakeWords "" s = some s := rfl
  have hmain : splitWakeWords (String.intercalate ";" phrases) s
      = some { s with wake_words_ := s.wake_words_ ++ phrases } := by
    cases phrases with
    | nil =>
      rw [List.append_nil]
      exact hempty
    | cons p ps =>
      unfold splitWakeWords
      rw [intercalate_cons_data,
        getlineLoop_phrases ps p s.wake_words_ _ (hsemi p (List.mem_cons_self _ _))
          (fun q hq => hsemi q (List.mem_cons_of_mem _ hq)) hlast (Nat.lt_succ_self _)]
  refine ⟨hmain, ?_, hempty⟩
  intro h0
  exact ⟨_, hmain, by simp [h0]⟩

/-- C15, the catalog of the wake-word scenario: `"hey device;ok device"` is split
into `["hey device", "ok device"]`. -/
theorem wake_words_round_trip_witness :
    (∀ p ∈ ["hey device", "ok device"], ';' ∉ p.data) ∧
      (∀ p, ["hey device", "ok device"].getLast? = some p → p ≠ "") ∧
      splitWakeWords "hey device;ok device" (initial 1 [])
        = some (initial 1 ["hey device", "ok device"]) := by
  have hsemi : ∀ p ∈ ["hey device", "ok device"], ';' ∉ p.data := by decide
  have hlast : ∀ p, ["hey device", "ok device"].getLast? = some p → p ≠ "" := by
    intro p hp
    have : p = "ok device" := by
      simp only [List.getLast?_cons_cons, List.getLast?_singleton, Option.some.injEq] at hp
      exact hp.symm
    rw [this]
    decide
  exact ⟨hsemi, hlast,
    (wake_words_round_trip ["hey device", "ok device"] (initial 1 []) hsemi hlast).1⟩

theorem getlineChars_rest_length (delim : Char) :
    ∀ ss : List Char, (getlineChars delim ss).2.length ≤ ss.length - 1 := by
  intro ss
  induction ss with
  | nil => simp [getlineChars]
  | cons c cs ih =>
    unfold getlineChars
    split
    · simp
    · simp only [List.length_cons, Nat.add_sub_cancel]
      omega

/-- The loop of `Initialize` ends on every string: one `getline` call per
character plus one is enough. -/
theorem getlineLoop_enough :
    ∀ (fuel : Nat) (ss : List Char) (ws : List String),
      ss.length < fuel → ∃ r, getlineLoop fuel ss ws = some r := by
  intro fuel
  induction fuel with
  | zero => intro ss ws h; omega
  | succ n ih =>
    intro ss ws h
    cases ss with
    | nil => exact ⟨ws, rfl⟩
    | cons c cs =>
      have hr := getlineChars_rest_length ';' (c :: cs)
      rw [List.length_cons] at h hr
      obtain ⟨r, hr2⟩ := ih (getlineChars ';' (c :: cs)).2
        (ws ++ [String.mk (getlineChars ';' (c :: cs)).1]) (by omega)
      exact ⟨r, by rw [getlineLoop]; simpa [getline] using hr2⟩

/-! ## Alternation of the voice-activity callbacks -/

/-- Appending the negation of the last value (of `false` when there is none)
keeps a list of booleans alternating and starting with `true`. -/
theorem alternating_snoc (L : List Bool) (b : Bool)
    (hc : List.Chain' (fun x y => x ≠ y) L)
    (hh : ∀ x, L.head? = some x → x = true)
    (hl : L.getLast?.getD false = !b) :
    List.Chain' (fun x y => x ≠ y) (L ++ [b]) ∧
      (∀ x, (L ++ [b]).head? = some x → x = true) ∧
      (L ++ [b]).getLast?.getD false = b := by
  refine ⟨?_, ?_, by simp⟩
  · rw [List.chain'_append]
    refine ⟨hc, List.chain'_singleton b, ?_⟩
    intro x hx y hy
    rw [Option.mem_def] at hx hy
    rw [hx] at hl
    simp only [List.head?_cons, Option.some.injEq] at hy
    subst hy
    simp only [Option.getD_some] at hl
    rw [hl]
    cases b <;> decide
  · intro x hx
    cases L with
    | nil =>
      simp only [List.nil_append, List.head?_cons, Option.some.injEq] at hx
      simp only [List.getLast?_nil, Option.getD_none] at hl
      subst hx
      cases b
      · cases hl
      · rfl
    | cons a as =>
      exact hh x (by simpa using hx)

/-- The VAD block keeps the calls alternating and the speaking state equal to the
last value passed. -/
theorem vadStateChange_alternating (s : WakeWordDetect) (v : VadState)
    (hc : List.Chain' (fun x y => x ≠ y) (vadCalls s.callbacks))
    (hh : ∀ x, (vadCalls s.callbacks).head? = some x → x = true)
    (hl : s.is_speaking_ = (vadCalls s.callbacks).getLast?.getD false) :
    List.Chain' (fun x y => x ≠ y) (vadCalls (vadStateChange s v).callbacks) ∧
      (∀ x, (vadCalls (vadStateChange s v).callbacks).head? = some x → x = true) ∧
      (vadStateChange s v).is_speaking_
        = (vadCalls (vadStateChange s v).callbacks).getLast?.getD false ∧
      (vadStateChange s v).vad_state_change_callback_ = s.vad_state_change_callback_ := by
  unfold vadStateChange
  split
  · split
    · next h =>
      have hv : vadCalls (s.callbacks ++ [Callback.vad_state_change true])
          = vadCalls s.callbacks ++ [true] := by simp [vadCalls]
      simp only [hv]
      obtain ⟨a1, a2, a3⟩ := alternating_snoc _ true hc hh (by rw [← hl, h.2]; rfl)
      exact ⟨a1, a2, a3.symm, by first | rfl | trivial⟩
    · split
      · next h =>
        have hv : vadCalls (s.callbacks ++ [Callback.vad_state_change false])
            = vadCalls s.callbacks ++ [false] := by simp [vadCalls]
        simp only [hv]
        obtain ⟨a1, a2, a3⟩ := alternating_snoc _ false hc hh (by rw [← hl, h.2]; rfl)
        exact ⟨a1, a2, a3.symm, by first | rfl | trivial⟩
      · exact ⟨hc, hh, hl, rfl⟩
  · exact ⟨hc, hh, hl, rfl⟩

theorem wakeupStateCheck_vad_flag (s s' : WakeWordDetect) (res : AfeFetchResult)
    (h : wakeupStateCheck s res = Outcome.ok s') :
    s'.vad_state_change_callback_ = s.vad_state_change_callback_ := by
  unfold wakeupStateCheck at h
  split at h
  · simp only [] at h
    split at h
    · cases h
    · split at h <;> (cases h; rfl)
  · cases h
    rfl

theorem Feed_vad_frame (chunksize : Nat) (s s' : WakeWordDetect) (data : List Sample)
    (h : Feed chunksize s data = some s') :
    s'.is_speaking_ = s.is_speaking_ ∧ s'.callbacks = s.callbacks := by
  unfold Feed FeedFuel at h
  simp only [] at h
  split at h
  · cases h
  · cases h
    exact ⟨rfl, rfl⟩

theorem GetWakeWordOpus_vad_frame (MAX_OPUS_BUFFER_SIZE : Nat) (s s' : WakeWordDetect)
    (b : Bool) (p : List Byte)
    (h : GetWakeWordOpus MAX_OPUS_BUFFER_SIZE s = Outcome.ok (b, p, s')) :
    s'.is_speaking_ = s.is_speaking_ ∧ s'.callbacks = s.callbacks := by
  have e : (evictOverLimit MAX_OPUS_BUFFER_SIZE s).is_speaking_ = s.is_speaking_ ∧
      (evictOverLimit MAX_OPUS_BUFFER_SIZE s).callbacks = s.callbacks := by
    unfold evictOverLimit
    split
    · split <;> exact ⟨rfl, rfl⟩
    · exact ⟨rfl, rfl⟩
  unfold GetWakeWordOpus at h
  split at h
  · cases h
  · simp only [] at h
    split at h
    · cases h
    · simp only [Outcome.ok.injEq, Prod.mk.injEq] at h
      obtain ⟨_, _, rfl⟩ := h
      split <;> exact e

/-- Every call keeps the voice-activity calls alternating, starting with `true`,
and the speaking state equal to the last value passed. -/
theorem applyCall_alternating (env : Env) (s s' : WakeWordDetect) (c : Call)
    (hc : List.Chain' (fun x y => x ≠ y) (vadCalls s.callbacks))
    (hh : ∀ x, (vadCalls s.callbacks).head? = some x → x = true)
    (hl : s.is_speaking_ = (vadCalls s.callbacks).getLast?.getD false)
    (h : applyCall env s c = Outcome.ok s') :
    List.Chain' (fun x y => x ≠ y) (vadCalls s'.callbacks) ∧
      (∀ x, (vadCalls s'.callbacks).head? = some x → x = true) ∧
      s'.is_speaking_ = (vadCalls s'.callbacks).getLast?.getD false := by
  have keep : s'.is_speaking_ = s.is_speaking_ ∧ s'.callbacks = s.callbacks →
      List.Chain' (fun x y => x ≠ y) (vadCalls s'.callbacks) ∧
      (∀ x, (vadCalls s'.callbacks).head? = some x → x = true) ∧
      s'.is_speaking_ = (vadCalls s'.callbacks).getLast?.getD false := by
    rintro ⟨e1, e2⟩
    rw [e1, e2]
    exact ⟨hc, hh, hl⟩
  cases c with
  | StartDetection =>
    simp only [applyCall] at h
    cases h
    exact keep ⟨rfl, rfl⟩
  | op o =>
    cases o with
    | Feed data =>
      simp only [applyCall, applyOp] at h
      split at h
      · next s'' hF =>
        cases h
        exact keep (Feed_vad_frame _ _ _ _ hF)
      · cases h
    | StopDetection =>
      simp only [applyCall, applyOp] at h
      cases h
      exact keep ⟨rfl, rfl⟩
    | EncodeWakeWordData =>
      simp only [applyCall, applyOp] at h
      cases h
      exact keep ⟨by rw [EncodeWakeWordData_eq], by rw [EncodeWakeWordData_eq]⟩
    | GetWakeWordOpus =>
      simp only [applyCall, applyOp] at h
      split at h
      · next b p s'' hG =>
        cases h
        exact keep (GetWakeWordOpus_vad_frame _ _ _ _ _ hG)
      · cases h
      · cases h
    | AudioDetectionTaskCycle res =>
      simp only [applyCall, applyOp] at h
      have hgate := AudioDetectionTaskCycle_ok_gate _ _ _ _ h
      cases res with
      | none =>
        have := (fetch_failure_skipped_aux env.MAX_PCM_BUFFER_SIZE s none (Or.inl rfl)) hgate
        rw [this] at h
        cases h
        exact ⟨hc, hh, hl⟩
      | some r =>
        by_cases hr : r.ret_value = ESP_FAIL
        · have := (fetch_failure_skipped_aux env.MAX_PCM_BUFFER_SIZE s (some r)
            (Or.inr ⟨r, rfl, hr⟩)) hgate
          rw [this] at h
          cases h
          exact ⟨hc, hh, hl⟩
        · rw [AudioDetectionTaskCycle_fetched _ _ _ hgate hr] at h
          obtain ⟨_, hS2, hS3, _, _, _⟩ :=
            StoreWakeWordData_frame env.MAX_PCM_BUFFER_SIZE s r.data (r.data_size / 2)
          obtain ⟨a1, a2, a3, _⟩ := vadStateChange_alternating
            (StoreWakeWordData env.MAX_PCM_BUFFER_SIZE s r.data (r.data_size / 2))
            r.vad_state (by rw [hS2]; exact hc) (by rw [hS2]; exact hh)
            (by rw [hS2, hS3]; exact hl)
          obtain ⟨w1, w2⟩ := wakeupStateCheck_vad _ _ _ h
          rw [w1, w2]
          exact ⟨a1, a2, a3⟩

theorem runCalls_alternating (env : Env) :
    ∀ (cs : List Call) (s s' : WakeWordDetect),
      List.Chain' (fun x y => x ≠ y) (vadCalls s.callbacks) →
      (∀ x, (vadCalls s.callbacks).head? = some x → x = true) →
      s.is_speaking_ = (vadCalls s.callbacks).getLast?.getD false →
      runCalls env s cs = some s' →
      List.Chain' (fun x y => x ≠ y) (vadCalls s'.callbacks) ∧
        (∀ x, (vadCalls s'.callbacks).head? = some x → x = true) ∧
        s'.is_speaking_ = (vadCalls s'.callbacks).getLast?.getD false := by
  intro cs
  induction cs with
  | nil =>
    intro s s' hc hh hl h
    simp only [runCalls, Option.some.injEq] at h
    subst h
    exact ⟨hc, hh, hl⟩
  | cons c cs ih =>
    intro s s' hc hh hl h
    simp only [runCalls] at h
    split at h
    · next s1 h1 =>
      obtain ⟨a1, a2, a3⟩ := applyCall_alternating env s s1 c hc hh hl h1
      exact ih s1 s' a1 a2 a3 h
    · exact ih s s' hc hh hl h
    · cases h

/-- C18 (voice-activity callbacks strictly alternate). Start from a speaking
state `false` with no value passed to the voice-activity callback yet, and let
any sequence of detection cycles run, interleaved in any way with
`StartDetection`, `StopDetection`, `Feed`, `EncodeWakeWordData` and
`GetWakeWordOpus`. Then the sequence of booleans passed to the callback has no two
equal consecutive values, begins with `true` when it is not empty, and the
speaking state equals the last value passed (`false` if none was passed). The
sequence is arbitrary, so this holds after every cycle. -/
theorem vad_callbacks_alternate (env : Env) (s s' : WakeWordDetect) (cs : List Call)
    (hsp : s.is_speaking_ = false) (hnone : vadCalls s.callbacks = [])
    (hrun : runCalls env s cs = some s') :
    List.Chain' (fun x y => x ≠ y) (vadCalls s'.callbacks) ∧
      (∀ x, (vadCalls s'.callbacks).head? = some x → x = true) ∧
      s'.is_speaking_ = (vadCalls s'.callbacks).getLast?.getD false := by
  apply runCalls_alternating env cs s s' _ _ _ hrun
  · rw [hnone]; exact List.chain'_nil
  · rw [hnone]; intro x hx; cases hx
  · rw [hnone, hsp]; rfl

/-- C18 at the voice-activity scenario: speech, speech, silence, other; the
callback receives `true` then `false`, and the speaking state ends `false`. -/
theorem vad_callbacks_alternate_witness :
    (OnVadStateChange (initial 1 ["hey device"])).is_speaking_ = false ∧
      vadCalls (OnVadStateChange (initial 1 ["hey device"])).callbacks = [] ∧
      runCalls testEnv (OnVadStateChange (initial 1 ["hey device"])) vadRun
        = some afterVadRun ∧
      vadCalls afterVadRun.callbacks = [true, false] ∧
      List.Chain' (fun x y => x ≠ y) (vadCalls afterVadRun.callbacks) ∧
      (∀ x, (vadCalls afterVadRun.callbacks).head? = some x → x = true) ∧
      afterVadRun.is_speaking_ = (vadCalls afterVadRun.callbacks).getLast?.getD false :=
  ⟨rfl, rfl, by decide, rfl,
    vad_callbacks_alternate testEnv (OnVadStateChange (initial 1 ["hey device"]))
      afterVadRun vadRun rfl rfl (by decide)⟩

end WakeWordDetect
